import Mathlib

/-!
# Storage providers (`edition/storage`): version parsing, version check, connection strings

A shallow embedding of the pure functions of `edition/storage/mysql.go` and
`edition/storage/postgresql.go`.

Go strings are modelled as lists of Unicode code points (`List Char`), that is, the
well-formed UTF-8 strings; byte offsets (`len`, `strings.Index`, slicing) are computed
from `Char.utf8Size`.  Go's `int` is the 64-bit signed integer; the only place where its
range matters is `strconv.Atoi`, which rejects out-of-range numerals.  A run-time fault
(`index out of range`) is an explicit outcome: functions that can fault return
`Except Panic _`.  The case mappings of Go's package `unicode` outside ASCII are a
parameter (`CaseTables`).  The SQL statements the providers build are executed by the
database; the section on their reading gives them the meaning the specification states.
-/

namespace Storage

/-! ## Run-time model -/

/-- Run-time faults of the Go program. -/
inductive Panic where
  | indexOutOfRange (index len : Nat)
  deriving DecidableEq, Repr

deriving instance DecidableEq for Except

/-- Byte length `len(s)` of a string. -/
def byteLen (s : List Char) : Nat :=
  (s.map Char.utf8Size).sum

/-- Slice `s[:n]`, for a byte offset `n` that lies on a character boundary. -/
def sliceTo : List Char → Nat → List Char
  | [], _ => []
  | c :: cs, n => if c.utf8Size ≤ n then c :: sliceTo cs (n - c.utf8Size) else []

/-- Indexing `xs[k]` of a slice, faulting when `k` is out of range. -/
def index {α : Type} (xs : List α) (k : Nat) : Except Panic α :=
  match xs.get? k with
  | some x => .ok x
  | none => .error (.indexOutOfRange k xs.length)

/-- Assignment `xs[k] = x` to a slice element, faulting when `k` is out of range. -/
def assign (xs : List Int) (k : Nat) (x : Int) : Except Panic (List Int) :=
  if k < xs.length then .ok (xs.set k x) else .error (.indexOutOfRange k xs.length)

/-! ## Package `strings` (single-character separators, as used by the source) -/

namespace strings

/-- Go `strings.Index(s, sep)` for a one-character `sep`: the byte offset of the first
occurrence, or `-1`. -/
def Index (s : List Char) (sep : Char) : Int :=
  if sep ∈ s then (byteLen (s.takeWhile (fun c => c ≠ sep)) : Int) else -1

/-- Go `strings.Split(s, sep)` for a one-character `sep`: the pieces of `s` between the
occurrences of `sep`; a string without `sep` (also the empty one) gives one piece. -/
def Split (s : List Char) (sep : Char) : List (List Char) :=
  match s with
  | [] => [[]]
  | c :: cs =>
    if c = sep then [] :: Split cs sep
    else (c :: (Split cs sep).headD []) :: (Split cs sep).tail

/-- Go `unicode.IsSpace`: the code points with the Unicode White_Space property. -/
def IsSpace (c : Char) : Bool :=
  let n := c.toNat
  (9 ≤ n && n ≤ 13) || n = 0x20 || n = 0x85 || n = 0xA0 || n = 0x1680 ||
  (0x2000 ≤ n && n ≤ 0x200A) || n = 0x2028 || n = 0x2029 || n = 0x202F ||
  n = 0x205F || n = 0x3000

/-- Go `strings.TrimSpace`: drop leading and trailing white space. -/
def TrimSpace (s : List Char) : List Char :=
  ((s.dropWhile IsSpace).reverse.dropWhile IsSpace).reverse

end strings

/-! ## Package `strconv` and `fmt` -/

namespace strconv

/-- The two error kinds of `strconv.NumError`. -/
inductive NumError where
  | ErrSyntax
  | ErrRange
  deriving DecidableEq, Repr

/-- Largest `uint64`. -/
def maxUint64 : Nat := 2 ^ 64 - 1

/-- The digit loop of `strconv.ParseUint(s, 10, 64)`: left to right, a non-digit is a
syntax error, a value above `maxUint64` a range error. -/
def parseUint : List Char → Nat → Except NumError Nat
  | [], n => .ok n
  | c :: cs, n =>
    if c.isDigit then
      if n * 10 + (c.toNat - 48) > maxUint64 then .error .ErrRange
      else parseUint cs (n * 10 + (c.toNat - 48))
    else .error .ErrSyntax

/-- The signed range check of `strconv.ParseInt(s, 10, 64)` on the magnitude `un`. -/
def signed (neg : Bool) (un : Nat) : Except NumError Int :=
  if neg then (if un > 2 ^ 63 then .error .ErrRange else .ok (-(un : Int)))
  else (if un ≥ 2 ^ 63 then .error .ErrRange else .ok (un : Int))

/-- The magnitude part of `Atoi`: at least one digit is required. A range error of the
digit loop stays a range error. -/
def magnitude (neg : Bool) (s : List Char) : Except NumError Int :=
  match s with
  | [] => .error .ErrSyntax
  | _ :: _ =>
    match parseUint s 0 with
    | .ok un => signed neg un
    | .error e => .error e

/-- Go `strconv.Atoi` on a 64-bit platform: an optional sign, then decimal digits, the
value within `int64`. -/
def Atoi (s : List Char) : Except NumError Int :=
  match s with
  | [] => .error .ErrSyntax
  | c :: cs =>
    if c = '-' then magnitude true cs
    else if c = '+' then magnitude false cs
    else magnitude false (c :: cs)

end strconv

namespace fmt

/-- The verb `%d` of `fmt.Sprintf` applied to an `int`. -/
def d (n : Int) : List Char :=
  if n < 0 then '-' :: Nat.toDigits 10 n.natAbs else Nat.toDigits 10 n.natAbs

/-- The call `fmt.Sprintf("%d.%d.%d", a, b, c)`. -/
def Sprintf3 (a b c : Int) : List Char :=
  d a ++ '.' :: (d b ++ '.' :: d c)

end fmt

/-! ## `convertDatabaseVersion` -/

/-- The errors `convertDatabaseVersion` returns: its own
`errors.New("MySQL version not of the form a.b.c")`, or the error of `strconv.Atoi`. -/
inductive VersionError where
  | notABC
  | atoi (e : strconv.NumError)
  deriving DecidableEq, Repr

/-- The loop `for key, val := range vs` of `convertDatabaseVersion`, from index `key` on,
with the current contents of `ints`. -/
def convertLoop : List (List Char) → Nat → List Int →
    Except Panic (List Int × Option VersionError)
  | [], _, ints => .ok (ints, none)
  | val :: rest, key, ints =>
    match strconv.Atoi val with
    | .error e => .ok (ints, some (.atoi e))
    | .ok num =>
      match assign ints key num with
      | .error p => .error p
      | .ok ints1 => convertLoop rest (key + 1) ints1

/-- Go `convertDatabaseVersion`: the returned pair `(ints, err)`, or a fault. -/
def convertDatabaseVersion (v : List Char) : Except Panic (List Int × Option VersionError) :=
  let ints : List Int := [0, 0, 0]
  let pos := strings.Index v '-'
  let v := if pos > 1 then sliceTo v pos.toNat else v
  let vs := strings.Split v '.'
  if vs.length < 3 then .ok (ints, some .notABC)
  else convertLoop vs 0 ints

/-! ## `MySQLProvider.VerfiyVersion` -/

/-- The MySQL provider: its two fields. -/
structure MySQLProvider where
  ConnectionString : List Char
  Variant : List Char
  deriving DecidableEq, Repr

/-- The string `want` built by `fmt.Sprintf("%d.%d.%d", minVer[0], minVer[1], minVer[2])`. -/
def want (minVer : List Int) : Except Panic (List Char) := do
  let m0 ← index minVer 0
  let m1 ← index minVer 1
  let m2 ← index minVer 2
  pure (fmt.Sprintf3 m0 m1 m2)

/-- The loop `for k, v := range minVer` of `VerfiyVersion`, from index `k` on; `rest` is
the part of `minVer` still to visit. Leaving the loop (by `break` or at its end) reaches
`return true, ""`. -/
def verifyLoop (minVer dbSemver : List Int) : List Int → Nat → Except Panic (Bool × List Char)
  | [], _ => .ok (true, [])
  | v :: rest, k => do
    let brk ←
      if k = 0 ∧ dbSemver.length > 0 then do
        let d0 ← index dbSemver 0
        let m0 ← index minVer 0
        pure (decide (d0 > m0))
      else pure false
    if brk then pure (true, [])
    else do
      let dk ← index dbSemver k
      if dk < v then do
        let w ← want minVer
        pure (false, w)
      else verifyLoop minVer dbSemver rest (k + 1)

/-- The minimum version chosen by the variant. -/
def minVer (p : MySQLProvider) : List Int :=
  if p.Variant = "mariadb".toList then [10, 3, 0] else [5, 7, 10]

/-- Go `MySQLProvider.VerfiyVersion`: the error of `convertDatabaseVersion` is discarded
(`dbSemver, _ :=`), a fault of it propagates. -/
def MySQLProvider.VerfiyVersion (p : MySQLProvider) (dbVersion : List Char) :
    Except Panic (Bool × List Char) :=
  match convertDatabaseVersion dbVersion with
  | .error e => .error e
  | .ok (dbSemver, _) => verifyLoop (minVer p) dbSemver (minVer p) 0

/-- A provider of the given variant (the connection string plays no part in the version
check). -/
def mysql (variant : String) : MySQLProvider :=
  { ConnectionString := [], Variant := variant.toList }

/-! ## `MySQLProvider.MakeConnectionString` -/

/-- Go `MySQLProvider.Params`: the map literal, as its list of entries (the keys are
distinct). -/
def MySQLProvider.Params (_p : MySQLProvider) : List (List Char × List Char) :=
  [("charset".toList, "utf8mb4".toList),
   ("parseTime".toList, "True".toList),
   ("maxAllowedPacket".toList, "104857600".toList)]

/-- The statements `if retFirst { retFirst = false } else { ret += "&" }; ret += item` on
the state `(ret, retFirst)`. -/
def emit (st : List Char × Bool) (item : List Char) : List Char × Bool :=
  if st.2 then (st.1 ++ item, false) else (st.1 ++ '&' :: item, false)

/-- The flag `found` computed for one existing parameter `pb`: a map lookup of the trimmed
text before `=`, made only when `pb` splits at `=` into exactly two pieces. -/
def found (params : List (List Char × List Char)) (pb : List Char) : Except Panic Bool :=
  let assignBits := strings.Split pb '='
  if assignBits.length = 2 then do
    let k ← index assignBits 0
    pure (params.lookup (strings.TrimSpace k)).isSome
  else pure false

/-- The loop `for _, pb := range paramBits` of `MakeConnectionString`. -/
def passLoop (params : List (List Char × List Char)) :
    List (List Char) → List Char × Bool → Except Panic (List Char × Bool)
  | [], st => .ok st
  | pb :: rest, st => do
    let f ← found params pb
    if !f then passLoop params rest (emit st pb)
    else passLoop params rest st

/-- The loop `for k, v := range params`, the entries taken in the order `order`. -/
def appendLoop : List (List Char × List Char) → List Char × Bool → List Char × Bool
  | [], st => st
  | (k, v) :: rest, st => appendLoop rest (emit st (k ++ '=' :: v))

/-- Go `MySQLProvider.MakeConnectionString`. Go leaves the iteration order of a map
unspecified: `order` is the order in which `range params` yields the entries of
`p.Params`, each of them once. -/
def MySQLProvider.MakeConnectionString (p : MySQLProvider)
    (order : List (List Char × List Char)) : Except Panic (List Char) := do
  let queryBits := strings.Split p.ConnectionString '?'
  let q0 ← index queryBits 0
  let st : List Char × Bool := (q0 ++ ['?'], true)
  let params := p.Params
  let st ←
    if queryBits.length = 2 then do
      let q1 ← index queryBits 1
      passLoop params (strings.Split q1 '&') st
    else pure st
  pure (appendLoop order st).1

/-- A provider with the given connection string. -/
def withConn (cs : String) : MySQLProvider :=
  { ConnectionString := cs.toList, Variant := "mysql".toList }

/-! ## Vocabulary of the connection-string properties -/

/-- The text after the first occurrence of `sep` (empty when there is none). -/
def afterFirst (s : List Char) (sep : Char) : List Char :=
  (s.dropWhile (fun c => c ≠ sep)).tail

/-- The parameter list of a connection string: the `&`-separated items after `?`. -/
def paramList (s : List Char) : List (List Char) :=
  strings.Split (afterFirst s '?') '&'

/-- The key of a parameter: the text before its first `=`, when it has one. -/
def keyOf (pb : List Char) : Option (List Char) :=
  if '=' ∈ pb then some (pb.takeWhile (fun c => c ≠ '=')) else none

/-- The number of parameters of `items` whose key is `k`. -/
def countKey (k : List Char) (items : List (List Char)) : Nat :=
  (items.filter (fun pb => keyOf pb = some k)).length

/-- The existing parameters of a connection string: the `&`-separated items of the text
after its first `?`, none when it has no `?`. -/
def existingParams (s : List Char) : List (List Char) :=
  if '?' ∈ s then paramList s else []

/-- The required parameter `k=v` as `MakeConnectionString` writes it. -/
def item (kv : List Char × List Char) : List Char :=
  kv.1 ++ '=' :: kv.2

/-- The value of the flag `found` for one existing parameter, as a plain boolean. -/
def isRequired (params : List (List Char × List Char)) (pb : List Char) : Bool :=
  decide ((strings.Split pb '=').length = 2) &&
    (params.lookup (strings.TrimSpace (pb.takeWhile (fun c => c ≠ '=')))).isSome

/-- The existing parameters that `MakeConnectionString` passes through: those of the text
after `?` for which `found` is false, when the connection string has exactly one `?`. -/
def kept (p : MySQLProvider) : List (List Char) :=
  if (strings.Split p.ConnectionString '?').length = 2 then
    (paramList p.ConnectionString).filter (fun pb => !isRequired p.Params pb)
  else []

/-- The items `i₀&i₁&…` written one after the other, `&` between them. -/
def joinAmp : List (List Char) → List Char
  | [] => []
  | i :: rest => i ++ (rest.map (fun x => '&' :: x)).flatten

/-! ## Package `strings`: substrings and letter case -/

/-- The case mappings of Go's package `unicode` outside ASCII (`unicode.ToLower` and
`unicode.ToUpper` on code points from 128 on). The tables are not part of the repository:
they are a parameter of the functions that change letter case. -/
structure CaseTables where
  lower : Char → Char
  upper : Char → Char

/-- The ASCII letters and digits of `utf8` and `utf8mb4`, in both letter cases. -/
def utf8Letters : List Char := "utfmbUTFMB84".toList

/-- What the properties of letter case need of the case tables: outside ASCII they never
produce one of the letters or digits of `utf8mb4`. -/
def CaseTables.Apart (tbl : CaseTables) : Prop :=
  ∀ c : Char, 128 ≤ c.toNat → tbl.lower c ∉ utf8Letters ∧ tbl.upper c ∉ utf8Letters

/-- The case tables that leave every code point outside ASCII unchanged. -/
def asciiTables : CaseTables :=
  { lower := fun c => c, upper := fun c => c }

namespace strings

/-- Go `strings.HasPrefix`. -/
def HasPrefix (s pre : List Char) : Bool :=
  pre.isPrefixOf s

/-- Go `strings.Contains`: `substr` occurs in `s`. -/
def Contains (s substr : List Char) : Bool :=
  match s with
  | [] => substr.isEmpty
  | c :: cs => substr.isPrefixOf (c :: cs) || Contains cs substr

/-- Go `strings.Replace(s, old, new, 1)`: the first occurrence of `old` replaced. -/
def ReplaceFirst (s old new : List Char) : List Char :=
  match s with
  | [] => if old = [] then new else []
  | c :: cs =>
    if old.isPrefixOf (c :: cs) then new ++ (c :: cs).drop old.length
    else c :: ReplaceFirst cs old new

/-- The lower-case mapping of one code point: ASCII letters directly, the rest by the
table. -/
def lowerRune (tbl : CaseTables) (c : Char) : Char :=
  if c.toNat < 128 then c.toLower else tbl.lower c

/-- The upper-case mapping of one code point. -/
def upperRune (tbl : CaseTables) (c : Char) : Char :=
  if c.toNat < 128 then c.toUpper else tbl.upper c

/-- Go `strings.ToLower`: every code point mapped to lower case. -/
def ToLower (tbl : CaseTables) (s : List Char) : List Char :=
  s.map (lowerRune tbl)

/-- Go `strings.ToUpper`: every code point mapped to upper case. -/
def ToUpper (tbl : CaseTables) (s : List Char) : List Char :=
  s.map (upperRune tbl)

end strings

/-! ## `DatabaseName` -/

/-- Go `MySQLProvider.DatabaseName`. -/
def MySQLProvider.DatabaseName (p : MySQLProvider) : Except Panic (List Char) :=
  let bits := strings.Split p.ConnectionString '/'
  if bits.length > 1 then do
    let last ← index bits (bits.length - 1)
    index (strings.Split last '?') 0
  else pure []

/-- The PostgreSQL provider: its two fields. -/
structure PostgreSQLProvider where
  ConnectionString : List Char
  Variant : List Char
  deriving DecidableEq, Repr

/-- The loop `for _, s := range bits` of `PostgreSQLProvider.DatabaseName`, followed by
the final `return ""`. -/
def dbnameLoop : List (List Char) → List Char
  | [] => []
  | s :: rest =>
    let s := strings.TrimSpace s
    if strings.Contains s "dbname=".toList then
      strings.ReplaceFirst s "dbname=".toList []
    else dbnameLoop rest

/-- Go `PostgreSQLProvider.DatabaseName`. -/
def PostgreSQLProvider.DatabaseName (p : PostgreSQLProvider) : List Char :=
  dbnameLoop (strings.Split p.ConnectionString ' ')

/-- A PostgreSQL provider with the given connection string. -/
def pgConn (cs : String) : PostgreSQLProvider :=
  { ConnectionString := cs.toList, Variant := [] }

/-! ## `VerfiyCharacterCollation` -/

/-- Go `MySQLProvider.VerfiyCharacterCollation`. -/
def MySQLProvider.VerfiyCharacterCollation (_p : MySQLProvider) (tbl : CaseTables)
    (charset collation : List Char) : Bool × List Char :=
  let charset := strings.ToLower tbl charset
  let collation := strings.ToLower tbl collation
  if charset ≠ "utf8".toList ∧ charset ≠ "utf8mb4".toList then
    (false, "MySQL character needs to be utf8/utf8mb4".toList)
  else if !strings.HasPrefix collation "utf8".toList then
    (false, "MySQL collation sequence needs to be utf8".toList)
  else (true, [])

/-- Go `PostgreSQLProvider.VerfiyCharacterCollation`; the `%s` of the message is the
charset as it was passed. -/
def PostgreSQLProvider.VerfiyCharacterCollation (_p : PostgreSQLProvider) (tbl : CaseTables)
    (charset _collation : List Char) : Bool × List Char :=
  if strings.ToLower tbl charset ≠ "utf8".toList then
    (false, "PostgreSQL character set needs to be utf8, found ".toList ++ charset)
  else (true, [])

/-! ## Schema version statements -/

/-- The document `json` both providers build with
`fmt.Sprintf("\x7b\"database\": \"%d\"\x7d", version)`. -/
def versionJSON (version : Int) : List Char :=
  "\x7b\"database\": \"".toList ++ fmt.d version ++ "\"\x7d".toList

/-- Go `MySQLProvider.QueryRecordVersionUpgrade`. -/
def MySQLProvider.QueryRecordVersionUpgrade (_p : MySQLProvider) (version : Int) : List Char :=
  let json := versionJSON version
  "INSERT INTO dmz_config (c_key,c_config) ".toList ++ "VALUES ('META','".toList ++ json ++
    "') ON DUPLICATE KEY UPDATE c_config='".toList ++ json ++ "';".toList

/-- Go `MySQLProvider.QueryGetDatabaseVersion`. -/
def MySQLProvider.QueryGetDatabaseVersion (_p : MySQLProvider) : List Char :=
  "SELECT JSON_EXTRACT(c_config,'$.database') FROM dmz_config WHERE c_key = 'META';".toList

/-- Go `PostgreSQLProvider.QueryRecordVersionUpgrade`: the two `%s` of the raw string,
which holds a line break followed by eight spaces, are both `json`. -/
def PostgreSQLProvider.QueryRecordVersionUpgrade (_p : PostgreSQLProvider) (version : Int) :
    List Char :=
  let json := versionJSON version
  "INSERT INTO dmz_config (c_key,c_config) VALUES ('META','".toList ++ json ++
    "')\n        ON CONFLICT (c_key) DO UPDATE SET c_config='".toList ++ json ++
    "' WHERE dmz_config.c_key='META'".toList

/-- Go `PostgreSQLProvider.QueryGetDatabaseVersion`. -/
def PostgreSQLProvider.QueryGetDatabaseVersion (_p : PostgreSQLProvider) : List Char :=
  "SELECT c_config -> 'database' FROM dmz_config WHERE c_key = 'META';".toList

/-! ## The backends' reading of the schema version statements

The statements are executed by the database, outside the repository. What follows is the
meaning the specification gives them: an upsert into the configuration table keyed by
`c_key`, and a query for one attribute of the JSON document of a row. -/

namespace Sql

/-- The single quote that delimits an SQL string literal. -/
def quote : Char := Char.ofNat 39

/-- Modelled from the spec: the rows of the configuration table `dmz_config`, the column
`c_key` being its key: a partial map from `c_key` to `c_config`. -/
abbrev Config := List Char → Option (List Char)

/-- Modelled from the spec: the two statements on `dmz_config`. An upsert of the row
`key` that inserts `ins` when there is no such row and otherwise, when the row satisfies
`c_key = cond`, sets `c_config` to `upd`; and a query for the attribute `attr` of the JSON
document in `c_config` of the row `key`. -/
inductive Stmt where
  | upsert (key ins upd cond : List Char)
  | selectAttr (attr key : List Char)
  deriving DecidableEq, Repr

/-- Modelled from the spec: a statement cut at its single quotes; the pieces at odd
positions are its string literals. -/
def pieces (q : List Char) : List (List Char) :=
  strings.Split q quote

/-- Modelled from the spec: the MySQL dialect, `INSERT … ON DUPLICATE KEY UPDATE` and
`JSON_EXTRACT(column, '$.attribute')`. -/
def parseMySQL (q : List Char) : Option Stmt :=
  match pieces q with
  | [a, key, b, ins, c, upd, e] =>
    if a = "INSERT INTO dmz_config (c_key,c_config) VALUES (".toList ∧ b = ",".toList ∧
        c = ") ON DUPLICATE KEY UPDATE c_config=".toList ∧ e = ";".toList then
      some (.upsert key ins upd key)
    else none
  | [a, path, b, key, e] =>
    if a = "SELECT JSON_EXTRACT(c_config,".toList ∧
        b = ") FROM dmz_config WHERE c_key = ".toList ∧ e = ";".toList ∧
        "$.".toList.isPrefixOf path then
      some (.selectAttr (path.drop 2) key)
    else none
  | _ => none

/-- Modelled from the spec: the PostgreSQL dialect, `INSERT … ON CONFLICT (c_key) DO UPDATE
SET … WHERE …` and `column -> 'attribute'`. -/
def parsePostgreSQL (q : List Char) : Option Stmt :=
  match pieces q with
  | [a, key, b, ins, c, upd, d, cond, e] =>
    if a = "INSERT INTO dmz_config (c_key,c_config) VALUES (".toList ∧ b = ",".toList ∧
        c = ")\n        ON CONFLICT (c_key) DO UPDATE SET c_config=".toList ∧
        d = " WHERE dmz_config.c_key=".toList ∧ e = [] then
      some (.upsert key ins upd cond)
    else none
  | [a, attr, b, key, e] =>
    if a = "SELECT c_config -> ".toList ∧ b = " FROM dmz_config WHERE c_key = ".toList ∧
        e = ";".toList then
      some (.selectAttr attr key)
    else none
  | _ => none

/-- Modelled from the spec: the attribute `attr` of a JSON document that is one object with
one string member, the value given by its content. -/
def jsonAttr (doc attr : List Char) : Option (List Char) :=
  match strings.Split doc '"' with
  | [a, name, b, value, c] =>
    if strings.TrimSpace a = "\x7b".toList ∧ name = attr ∧ strings.TrimSpace b = ":".toList ∧
        strings.TrimSpace c = "\x7d".toList then some value
    else none
  | _ => none

/-- Modelled from the spec: the execution of a statement: the configuration table after
it, and the value a query yields. -/
def exec (st : Stmt) (cfg : Config) : Config × Option (List Char) :=
  match st with
  | .upsert key ins upd cond =>
    match cfg key with
    | none => (fun k => if k = key then some ins else cfg k, none)
    | some _ =>
      if cond = key then (fun k => if k = key then some upd else cfg k, none)
      else (cfg, none)
  | .selectAttr attr key =>
    (cfg, (cfg key).bind (fun doc => jsonAttr doc attr))

/-- Modelled from the spec: the value the query `r` yields after the statement `w` was
executed on the table `cfg`, both read in the dialect `parse`. -/
def readAfterWrite (parse : List Char → Option Stmt) (w r : List Char) (cfg : Config) :
    Option (List Char) :=
  match parse w, parse r with
  | some s1, some s2 => (exec s2 (exec s1 cfg).1).2
  | _, _ => none

end Sql

/-! ## Lemmas: `strings` -/

theorem byteLen_ge (s : List Char) : s.length ≤ byteLen s := by
  induction s with
  | nil => simp [byteLen]
  | cons c cs ih =>
    have hc := Char.utf8Size_pos c
    simp only [byteLen, List.map_cons, List.sum_cons, List.length_cons] at ih ⊢
    omega

theorem sliceTo_prefix (p : List Char) (c : Char) (s : List Char) :
    sliceTo (p ++ c :: s) (byteLen p) = p := by
  induction p with
  | nil =>
    have hc := Char.utf8Size_pos c
    simp [sliceTo, byteLen]
    omega
  | cons x xs ih =>
    simp only [byteLen, List.map_cons, List.sum_cons, List.cons_append, sliceTo] at ih ⊢
    simp [ih]

theorem takeWhile_append_dropWhile_cons (s : List Char) (sep : Char) (h : sep ∈ s) :
    s = s.takeWhile (fun c => c ≠ sep) ++ sep :: (s.dropWhile (fun c => c ≠ sep)).tail := by
  induction s with
  | nil => simp at h
  | cons x xs ih =>
    by_cases hx : x = sep
    · subst hx; simp
    · have hm : sep ∈ xs := by
        rcases List.mem_cons.1 h with h1 | h1
        · exact absurd h1.symm hx
        · exact h1
      have := ih hm
      simp only [List.takeWhile_cons, List.dropWhile_cons, hx, ne_eq, not_false_eq_true,
        decide_True, ite_true, List.cons_append]
      exact congrArg _ this

/-- Slicing at the offset of the first separator keeps exactly the text before it. -/
theorem sliceTo_Index (s : List Char) (sep : Char) (h : sep ∈ s) :
    sliceTo s (strings.Index s sep).toNat = s.takeWhile (fun c => c ≠ sep) := by
  have hs := takeWhile_append_dropWhile_cons s sep h
  simp only [strings.Index, h, if_true, Int.toNat_ofNat]
  have key := sliceTo_prefix (s.takeWhile (fun c => c ≠ sep)) sep
    (s.dropWhile (fun c => c ≠ sep)).tail
  rw [← hs] at key
  exact key

namespace strings

theorem Split_ne_nil (s : List Char) (sep : Char) : Split s sep ≠ [] := by
  cases s with
  | nil => simp [Split]
  | cons c cs => simp only [Split]; split <;> simp

theorem Split_of_not_mem (s : List Char) (sep : Char) (h : sep ∉ s) : Split s sep = [s] := by
  induction s with
  | nil => simp [Split]
  | cons c cs ih =>
    have hc : c ≠ sep := fun e => h (by simp [e])
    have hcs : sep ∉ cs := fun e => h (List.mem_cons_of_mem _ e)
    simp [Split, hc, ih hcs]

theorem Split_append_sep (p s : List Char) (sep : Char) (h : sep ∉ p) :
    Split (p ++ sep :: s) sep = p :: Split s sep := by
  induction p with
  | nil => simp [Split]
  | cons c cs ih =>
    have hc : c ≠ sep := fun e => h (by simp [e])
    have hcs : sep ∉ cs := fun e => h (List.mem_cons_of_mem _ e)
    simp [Split, hc, ih hcs]

theorem Split_length (s : List Char) (sep : Char) :
    (Split s sep).length = s.count sep + 1 := by
  induction s with
  | nil => simp [Split]
  | cons c cs ih =>
    by_cases hc : c = sep
    · subst hc; simp [Split, ih]
    · have hne := Split_ne_nil cs sep
      have hl : (Split cs sep).tail.length + 1 = (Split cs sep).length := by
        cases hS : Split cs sep with
        | nil => exact absurd hS hne
        | cons a as => simp
      simp only [Split, hc, if_false, List.length_cons, hl, ih]
      rw [List.count_cons_of_ne (Ne.symm hc)]

end strings

/-! ## Lemmas: decimal numerals -/

theorem digitChar_spec (k : Nat) (h : k < 10) :
    (Nat.digitChar k).isDigit = true ∧ (Nat.digitChar k).toNat - 48 = k := by
  interval_cases k <;> decide

theorem toDigitsCore_acc (fuel n : Nat) (ds : List Char) :
    Nat.toDigitsCore 10 fuel n ds = Nat.toDigitsCore 10 fuel n [] ++ ds := by
  induction fuel generalizing n ds with
  | zero => simp [Nat.toDigitsCore]
  | succ f ih =>
    simp only [Nat.toDigitsCore]
    split
    · simp
    · rw [ih (n / 10) (Nat.digitChar (n % 10) :: ds), ih (n / 10) [Nat.digitChar (n % 10)]]
      simp

theorem toDigitsCore_isDigit (fuel n : Nat) :
    ∀ c ∈ Nat.toDigitsCore 10 fuel n [], c.isDigit = true := by
  induction fuel generalizing n with
  | zero => simp [Nat.toDigitsCore]
  | succ f ih =>
    have hd := (digitChar_spec (n % 10) (Nat.mod_lt _ (by decide))).1
    simp only [Nat.toDigitsCore]
    split
    · intro c hc
      simp only [List.mem_singleton] at hc
      rw [hc]; exact hd
    · rw [toDigitsCore_acc]
      intro c hc
      rcases List.mem_append.1 hc with h1 | h1
      · exact ih _ c h1
      · simp only [List.mem_singleton] at h1
        rw [h1]; exact hd

theorem toDigits_isDigit (n : Nat) : ∀ c ∈ Nat.toDigits 10 n, c.isDigit = true :=
  toDigitsCore_isDigit _ _

theorem toDigits_ne_nil (n : Nat) : Nat.toDigits 10 n ≠ [] := by
  simp only [Nat.toDigits, Nat.toDigitsCore]
  split
  · simp
  · rw [toDigitsCore_acc]; simp

namespace strconv

theorem parseUint_append (l1 l2 : List Char) (m : Nat) :
    parseUint (l1 ++ l2) m =
      match parseUint l1 m with
      | .ok v => parseUint l2 v
      | .error e => .error e := by
  induction l1 generalizing m with
  | nil => simp [parseUint]
  | cons c cs ih =>
    simp only [List.cons_append, parseUint]
    split
    · split
      · rfl
      · exact ih _
    · rfl

theorem parseUint_toDigitsCore (fuel n : Nat) (hf : n < fuel) (hn : n ≤ maxUint64) :
    parseUint (Nat.toDigitsCore 10 fuel n []) 0 = .ok n := by
  induction fuel generalizing n with
  | zero => omega
  | succ f ih =>
    have hd := digitChar_spec (n % 10) (Nat.mod_lt _ (by decide))
    simp only [Nat.toDigitsCore]
    split
    · rename_i h0
      have hn10 : n % 10 = n := by omega
      simp only [parseUint, hd.1, hd.2, if_true, Nat.zero_mul, Nat.zero_add]
      rw [hn10, if_neg (by omega)]
    · rename_i h0
      rw [toDigitsCore_acc, parseUint_append, ih (n / 10) (by omega) (by omega)]
      simp only [parseUint, hd.1, hd.2, if_true]
      have : n / 10 * 10 + n % 10 = n := by omega
      rw [this, if_neg (by omega)]

/-- Parsing the decimal numeral of a value within `int64` gives the value back. -/
theorem Atoi_toDigits (n : Nat) (hn : n < 2 ^ 63) :
    Atoi (Nat.toDigits 10 n) = .ok (n : Int) := by
  have hne := toDigits_ne_nil n
  have hdig := toDigits_isDigit n
  have hp : parseUint (Nat.toDigits 10 n) 0 = .ok n :=
    parseUint_toDigitsCore (n + 1) n (by omega) (by simp only [maxUint64]; omega)
  cases hT : Nat.toDigits 10 n with
  | nil => exact absurd hT hne
  | cons c cs =>
    rw [hT] at hp hdig
    have hc : c.isDigit = true := hdig c (by simp)
    have h1 : c ≠ '-' := by intro e; rw [e] at hc; exact absurd hc (by decide)
    have h2 : c ≠ '+' := by intro e; rw [e] at hc; exact absurd hc (by decide)
    have h3 : ¬ n ≥ 2 ^ 63 := by omega
    simp only [Atoi, h1, h2, if_false, magnitude, hp, signed]
    rw [if_neg h3]
    simp

end strconv

theorem fmt_d_natCast (n : Nat) : fmt.d (n : Int) = Nat.toDigits 10 n := by
  simp [fmt.d]

theorem fmt_d_not_mem (n : Nat) (c : Char) (hc : c.isDigit = false) : c ∉ fmt.d (n : Int) := by
  rw [fmt_d_natCast]
  intro h
  have := toDigits_isDigit n c h
  rw [hc] at this
  exact absurd this (by decide)

/-! ## Lemmas: `convertDatabaseVersion` -/

theorem takeWhile_ne_append (p s : List Char) (sep : Char) (h : sep ∉ p) :
    (p ++ sep :: s).takeWhile (fun c => c ≠ sep) = p := by
  induction p with
  | nil => simp
  | cons c cs ih =>
    have hc : c ≠ sep := fun e => h (by simp [e])
    have hcs : sep ∉ cs := fun e => h (List.mem_cons_of_mem _ e)
    have := ih hcs
    simp only [List.cons_append, List.takeWhile_cons, hc, ne_eq, not_false_eq_true,
      decide_True, if_true]
    exact congrArg _ this

/-- The text `convertDatabaseVersion` goes on with after the hyphen test. -/
theorem strip_cases (v : List Char) :
    (if strings.Index v '-' > 1 then sliceTo v (strings.Index v '-').toNat else v) = v ∨
    (if strings.Index v '-' > 1 then sliceTo v (strings.Index v '-').toNat else v) =
      v.takeWhile (fun c => c ≠ '-') := by
  by_cases hm : '-' ∈ v
  · by_cases hp : strings.Index v '-' > 1
    · right; rw [if_pos hp]; exact sliceTo_Index v '-' hm
    · left; rw [if_neg hp]
  · left
    have : ¬ strings.Index v '-' > 1 := by simp [strings.Index, hm]
    rw [if_neg this]

theorem strip_of_not_mem (v : List Char) (h : '-' ∉ v) :
    (if strings.Index v '-' > 1 then sliceTo v (strings.Index v '-').toNat else v) = v := by
  have : ¬ strings.Index v '-' > 1 := by simp [strings.Index, h]
  rw [if_neg this]

theorem strip_append (p s : List Char) (h : '-' ∉ p) (hl : 2 ≤ p.length) :
    (if strings.Index (p ++ '-' :: s) '-' > 1
      then sliceTo (p ++ '-' :: s) (strings.Index (p ++ '-' :: s) '-').toNat
      else p ++ '-' :: s) = p := by
  have hm : '-' ∈ p ++ '-' :: s := by simp
  have hb := byteLen_ge p
  have hp : strings.Index (p ++ '-' :: s) '-' > 1 := by
    simp only [strings.Index, hm, if_true, takeWhile_ne_append p s '-' h]
    omega
  rw [if_pos hp, sliceTo_Index _ _ hm, takeWhile_ne_append p s '-' h]

/-- A suffix that starts at a hyphen after at least two bytes is ignored. -/
theorem convert_append_hyphen (p s : List Char) (h : '-' ∉ p) (hl : 2 ≤ p.length) :
    convertDatabaseVersion (p ++ '-' :: s) = convertDatabaseVersion p := by
  simp only [convertDatabaseVersion]
  rw [strip_append p s h hl, strip_of_not_mem p h]

theorem Split_Sprintf3 (a b c : Nat) :
    strings.Split (fmt.Sprintf3 a b c) '.' = [fmt.d a, fmt.d b, fmt.d c] := by
  have ha := fmt_d_not_mem a '.' (by decide)
  have hb := fmt_d_not_mem b '.' (by decide)
  have hc := fmt_d_not_mem c '.' (by decide)
  simp only [fmt.Sprintf3]
  rw [strings.Split_append_sep _ _ _ ha, strings.Split_append_sep _ _ _ hb,
    strings.Split_of_not_mem _ _ hc]

theorem Sprintf3_no_hyphen (a b c : Nat) : '-' ∉ fmt.Sprintf3 a b c := by
  have ha := fmt_d_not_mem a '-' (by decide)
  have hb := fmt_d_not_mem b '-' (by decide)
  have hc := fmt_d_not_mem c '-' (by decide)
  simp only [fmt.Sprintf3, List.mem_append, List.mem_cons]
  rintro (h | h | h | h | h)
  · exact ha h
  · exact absurd h (by decide)
  · exact hb h
  · exact absurd h (by decide)
  · exact hc h

theorem Sprintf3_length (a b c : Int) : 2 ≤ (fmt.Sprintf3 a b c).length := by
  simp only [fmt.Sprintf3, List.length_append, List.length_cons]
  omega

/-- The parser on the decimal rendering of three in-range components. -/
theorem convert_Sprintf3 (a b c : Nat) (ha : a < 2 ^ 63) (hb : b < 2 ^ 63) (hc : c < 2 ^ 63) :
    convertDatabaseVersion (fmt.Sprintf3 a b c) = .ok ([(a : Int), (b : Int), (c : Int)], none) := by
  simp only [convertDatabaseVersion]
  rw [strip_of_not_mem _ (Sprintf3_no_hyphen a b c), Split_Sprintf3]
  simp only [fmt_d_natCast, List.length_cons, List.length_nil, convertLoop,
    strconv.Atoi_toDigits a ha, strconv.Atoi_toDigits b hb, strconv.Atoi_toDigits c hc, assign]
  simp

/-- Fewer than three dot-separated components: the parser reports its own error and
leaves the triple at zero. -/
theorem convert_lt_three (v : List Char) (h : (strings.Split v '.').length < 3) :
    convertDatabaseVersion v = .ok ([0, 0, 0], some .notABC) := by
  have hlen : ∀ w : List Char, w = v ∨ w = v.takeWhile (fun c => c ≠ '-') →
      (strings.Split w '.').length < 3 := by
    intro w hw
    rcases hw with hw | hw
    · rw [hw]; exact h
    · rw [strings.Split_length] at h ⊢
      have : w.count '.' ≤ v.count '.' := by
        rw [hw]
        exact (List.takeWhile_sublist _).count_le _
      omega
  simp only [convertDatabaseVersion]
  rw [if_pos (hlen _ (strip_cases v))]

/-! ## Lemmas: `VerfiyVersion` -/

/-- The comparison loop on a three-component version and a three-component minimum. -/
theorem verifyLoop_triple (M m q a b c : Int) :
    verifyLoop [M, m, q] [a, b, c] [M, m, q] 0 =
      if a > M ∨ (a = M ∧ b ≥ m ∧ c ≥ q) then .ok (true, [])
      else .ok (false, fmt.Sprintf3 M m q) := by
  simp only [verifyLoop, index, want, List.get?, List.length_cons, List.length_nil, bind,
    Except.bind, pure, Except.pure]
  by_cases h0 : a > M
  · simp [h0]
  · by_cases h1 : a < M
    · have : ¬ (a = M) := by omega
      simp [h0, h1, this]
    · have ha : a = M := by omega
      subst ha
      by_cases h2 : b < m
      · have : ¬ (m ≤ b) := by omega
        simp [h2, this]
      · by_cases h3 : c < q
        · have : ¬ (q ≤ c) := by omega
          simp [h2, h3, this]
        · have hb : m ≤ b := by omega
          have hc : q ≤ c := by omega
          simp [h2, h3, hb, hc]

theorem VerfiyVersion_of_convert (p : MySQLProvider) (v : List Char) (a b c : Int)
    (e : Option VersionError) (h : convertDatabaseVersion v = .ok ([a, b, c], e)) :
    p.VerfiyVersion v =
      if p.Variant = "mariadb".toList then
        (if a > 10 ∨ (a = 10 ∧ b ≥ 3 ∧ c ≥ 0) then .ok (true, [])
          else .ok (false, "10.3.0".toList))
      else
        (if a > 5 ∨ (a = 5 ∧ b ≥ 7 ∧ c ≥ 10) then .ok (true, [])
          else .ok (false, "5.7.10".toList)) := by
  have e1 : fmt.Sprintf3 10 3 0 = "10.3.0".toList := by decide
  have e2 : fmt.Sprintf3 5 7 10 = "5.7.10".toList := by decide
  simp only [MySQLProvider.VerfiyVersion, h, minVer]
  split
  · rw [verifyLoop_triple, e1]
  · rw [verifyLoop_triple, e2]

/-! ## Lemmas: `MakeConnectionString` -/

namespace strings

theorem Split_headD (s : List Char) (sep : Char) :
    (Split s sep).headD [] = s.takeWhile (fun c => c ≠ sep) := by
  cases s with
  | nil => simp [Split]
  | cons c cs =>
    by_cases hc : c = sep
    · subst hc; simp [Split]
    · induction cs generalizing c with
      | nil => simp [Split, hc]
      | cons x xs ih =>
        by_cases hx : x = sep
        · subst hx; simp [Split, hc]
        · have := ih x hx
          simp only [Split, hc, hx, if_false, List.headD_cons, List.takeWhile_cons, ne_eq,
            not_false_eq_true, decide_True, if_true] at this ⊢
          rw [this]

theorem Split_no_sep (s : List Char) (sep : Char) : ∀ x ∈ Split s sep, sep ∉ x := by
  induction s with
  | nil => simp [Split]
  | cons c cs ih =>
    have hne := Split_ne_nil cs sep
    cases hS : Split cs sep with
    | nil => exact absurd hS hne
    | cons a as =>
      rw [hS] at ih
      by_cases hc : c = sep
      · subst hc
        intro x hx
        simp only [Split, if_true, hS, List.mem_cons] at hx
        rcases hx with hx | hx | hx
        · rw [hx]; simp
        · rw [hx]; exact ih a (by simp)
        · exact ih x (by simp [hx])
      · intro x hx
        simp only [Split, hc, if_false, hS, List.headD_cons, List.tail_cons,
          List.mem_cons] at hx
        rcases hx with hx | hx
        · rw [hx]
          intro hm
          rcases List.mem_cons.1 hm with h1 | h1
          · exact hc h1.symm
          · exact ih a (by simp) h1
        · exact ih x (by simp [hx])

theorem Split_eq_cons (s : List Char) (sep : Char) (h : sep ∈ s) :
    Split s sep = s.takeWhile (fun c => c ≠ sep) :: Split (afterFirst s sep) sep := by
  have hs := takeWhile_append_dropWhile_cons s sep h
  have hn : sep ∉ s.takeWhile (fun c => c ≠ sep) := by
    intro hm
    have := List.mem_takeWhile_imp hm
    simp at this
  have key := Split_append_sep (s.takeWhile (fun c => c ≠ sep))
    (s.dropWhile (fun c => c ≠ sep)).tail sep hn
  rw [← hs] at key
  exact key

theorem Split_joinAmp (i : List Char) (rest : List (List Char))
    (h : ∀ x ∈ i :: rest, '&' ∉ x) : Split (joinAmp (i :: rest)) '&' = i :: rest := by
  induction rest generalizing i with
  | nil =>
    simp only [joinAmp, List.map_nil, List.flatten_nil, List.append_nil]
    exact Split_of_not_mem _ _ (h i (by simp))
  | cons r rs ih =>
    have hi := h i (by simp)
    have hr : ∀ x ∈ r :: rs, '&' ∉ x := fun x hx => h x (List.mem_cons_of_mem _ hx)
    have := ih r hr
    simp only [joinAmp, List.map_cons, List.flatten_cons, List.cons_append] at this ⊢
    rw [Split_append_sep _ _ _ hi, this]

end strings

theorem index_zero_Split (s : List Char) (sep : Char) :
    index (strings.Split s sep) 0 = .ok (s.takeWhile (fun c => c ≠ sep)) := by
  have hne := strings.Split_ne_nil s sep
  have hh := strings.Split_headD s sep
  cases hS : strings.Split s sep with
  | nil => exact absurd hS hne
  | cons a as =>
    rw [hS] at hh
    simp only [List.headD_cons] at hh
    simp [index, hh]

theorem found_eq (params : List (List Char × List Char)) (pb : List Char) :
    found params pb = .ok (isRequired params pb) := by
  simp only [found, isRequired]
  by_cases h : (strings.Split pb '=').length = 2
  · simp only [h, if_true, index_zero_Split, decide_True, Bool.true_and]
    rfl
  · simp only [h, if_false, decide_False, Bool.false_and]
    rfl

theorem foldl_emit_false (items : List (List Char)) (r : List Char) :
    items.foldl emit (r, false) = (r ++ (items.map (fun x => '&' :: x)).flatten, false) := by
  induction items generalizing r with
  | nil => simp
  | cons i rest ih =>
    simp only [List.foldl_cons, emit, Bool.false_eq_true, if_false, ih, List.map_cons,
      List.flatten_cons, List.append_assoc]

theorem foldl_emit_true (items : List (List Char)) (r : List Char) :
    (items.foldl emit (r, true)).1 = r ++ joinAmp items := by
  cases items with
  | nil => simp [joinAmp]
  | cons i rest =>
    simp only [List.foldl_cons, emit, if_true, foldl_emit_false, joinAmp, List.append_assoc]

theorem passLoop_eq (params : List (List Char × List Char)) (bits : List (List Char))
    (st : List Char × Bool) :
    passLoop params bits st =
      .ok ((bits.filter (fun pb => !isRequired params pb)).foldl emit st) := by
  induction bits generalizing st with
  | nil => simp [passLoop]
  | cons pb rest ih =>
    simp only [passLoop, found_eq, bind, Except.bind]
    by_cases hf : isRequired params pb = true
    · simp [hf, ih]
    · have hf2 : isRequired params pb = false := by simpa using hf
      simp [hf2, ih]

theorem appendLoop_eq (order : List (List Char × List Char)) (st : List Char × Bool) :
    appendLoop order st = (order.map item).foldl emit st := by
  induction order generalizing st with
  | nil => simp [appendLoop]
  | cons kv rest ih =>
    obtain ⟨k, v⟩ := kv
    simp only [appendLoop, ih, List.map_cons, List.foldl_cons, item]

/-- The returned string: the text before the first `?`, a `?`, then the passed-through
parameters followed by the required ones, joined by `&`. -/
theorem MakeConnectionString_eq (p : MySQLProvider) (order : List (List Char × List Char)) :
    p.MakeConnectionString order =
      .ok (p.ConnectionString.takeWhile (fun c => c ≠ '?') ++
        '?' :: joinAmp (kept p ++ order.map item)) := by
  simp only [MySQLProvider.MakeConnectionString, index_zero_Split, bind, Except.bind, pure,
    Except.pure, kept, paramList]
  by_cases h2 : (strings.Split p.ConnectionString '?').length = 2
  · have hq : '?' ∈ p.ConnectionString := by
      by_contra hn
      rw [strings.Split_of_not_mem _ _ hn] at h2
      simp at h2
    have hs := strings.Split_eq_cons _ _ hq
    have h1 : (strings.Split (afterFirst p.ConnectionString '?') '?').length = 1 := by
      rw [hs] at h2
      simpa using h2
    have hn : '?' ∉ afterFirst p.ConnectionString '?' := by
      rw [strings.Split_length] at h1
      intro hm
      have := List.count_pos_iff.2 hm
      omega
    have hidx : index (strings.Split p.ConnectionString '?') 1 =
        .ok (afterFirst p.ConnectionString '?') := by
      rw [hs, strings.Split_of_not_mem _ _ hn]
      rfl
    simp only [h2, if_true, hidx, passLoop_eq, appendLoop_eq, ← List.foldl_append,
      foldl_emit_true]
    simp
  · simp only [h2, if_false, appendLoop_eq, foldl_emit_true]
    simp

theorem afterFirst_append (b x : List Char) (sep : Char) (h : sep ∉ b) :
    afterFirst (b ++ sep :: x) sep = x := by
  induction b with
  | nil => simp [afterFirst]
  | cons c cs ih =>
    have hc : c ≠ sep := fun e => h (by simp [e])
    have hcs : sep ∉ cs := fun e => h (List.mem_cons_of_mem _ e)
    have := ih hcs
    simp only [afterFirst, List.cons_append, List.dropWhile_cons, hc, ne_eq, not_false_eq_true,
      decide_True, if_true] at this ⊢
    exact this

theorem Params_facts (p : MySQLProvider) :
    (∀ kv ∈ p.Params, '&' ∉ item kv) ∧
    (∀ kv ∈ p.Params, '=' ∉ kv.1) ∧
    (∀ kv ∈ p.Params, (p.Params.lookup (strings.TrimSpace kv.1)).isSome = true) ∧
    (∀ kv ∈ p.Params, ∀ kw ∈ p.Params, kv.1 = kw.1 → kv.2 = kw.2) ∧
    (∀ kv ∈ p.Params, countKey kv.1 (p.Params.map item) = 1) := by
  rw [show p.Params = (withConn "").Params from rfl]
  decide

/-- The parameter list of the returned string: the passed-through parameters, then the
required ones in the order the map yields them. -/
theorem paramList_MakeConnectionString (p : MySQLProvider)
    (order : List (List Char × List Char)) (hperm : order.Perm p.Params) :
    ∃ out, p.MakeConnectionString order = .ok out ∧
      paramList out = kept p ++ order.map item := by
  refine ⟨_, MakeConnectionString_eq p order, ?_⟩
  have hb : '?' ∉ p.ConnectionString.takeWhile (fun c => c ≠ '?') := by
    intro hm
    have := List.mem_takeWhile_imp hm
    simp at this
  have hamp : ∀ x ∈ kept p ++ order.map item, '&' ∉ x := by
    intro x hx
    rcases List.mem_append.1 hx with h | h
    · simp only [kept] at h
      split at h
      · exact strings.Split_no_sep _ _ x (List.mem_of_mem_filter h)
      · simp at h
    · obtain ⟨kv, hkv, rfl⟩ := List.mem_map.1 h
      exact (Params_facts p).1 kv (hperm.mem_iff.1 hkv)
  have hne : kept p ++ order.map item ≠ [] := by
    have hl := hperm.length_eq
    intro h
    have := congrArg List.length h
    simp only [List.length_append, List.length_map, hl, MySQLProvider.Params,
      List.length_cons, List.length_nil] at this
    omega
  simp only [paramList, afterFirst_append _ _ _ hb]
  cases hL : kept p ++ order.map item with
  | nil => exact absurd hL hne
  | cons i rest =>
    rw [hL] at hamp
    exact strings.Split_joinAmp i rest hamp

/-- An existing parameter `k=v` with a required key and one `=` is not passed through. -/
theorem not_kept_of_key (p : MySQLProvider) (pb : List Char) (kv : List Char × List Char)
    (hkv : kv ∈ p.Params) (hkey : keyOf pb = some kv.1) (hone : pb.count '=' = 1) :
    pb ∉ kept p := by
  intro hm
  simp only [kept] at hm
  split at hm
  · have hreq := (List.mem_filter.1 hm).2
    have htw : pb.takeWhile (fun c => c ≠ '=') = kv.1 := by
      simp only [keyOf] at hkey
      split at hkey
      · exact Option.some.inj hkey
      · exact absurd hkey (by simp)
    have hlen : (strings.Split pb '=').length = 2 := by
      rw [strings.Split_length, hone]
    have : isRequired p.Params pb = true := by
      simp only [isRequired, hlen, htw, decide_True, Bool.true_and]
      exact (Params_facts p).2.2.1 kv hkv
    rw [this] at hreq
    simp at hreq
  · simp at hm

theorem countKey_append (k : List Char) (xs ys : List (List Char)) :
    countKey k (xs ++ ys) = countKey k xs + countKey k ys := by
  simp [countKey]

theorem countKey_eq_zero (k : List Char) (xs : List (List Char))
    (h : ∀ pb ∈ xs, keyOf pb ≠ some k) : countKey k xs = 0 := by
  simp only [countKey, List.length_eq_zero, List.filter_eq_nil_iff, decide_eq_true_eq]
  exact h

theorem keyOf_item (k v : List Char) (h : '=' ∉ k) : keyOf (k ++ '=' :: v) = some k := by
  have hm : '=' ∈ k ++ '=' :: v := by simp
  simp only [keyOf, hm, if_true, takeWhile_ne_append k v '=' h]

/-! ## Version check and version parser: the settled properties -/

/-- C1: the MySQL floor `(5,7,10)` is not applied in lexicographic order. The code agrees
with the order on `5.7.9` (fails), `5.7.10`, `6.0.0` (pass) and `4.9.9` (fails), but it
rejects `5.8.0`, which is above `5.7.10` in lexicographic order: after an equal major
component the patch component is still compared although the minor one is higher. -/
theorem VerfiyVersion_5_8_0_rejected :
    (mysql "mysql").VerfiyVersion "5.8.0".toList = .ok (false, "5.7.10".toList) ∧
    (mysql "mysql").VerfiyVersion "5.7.9".toList = .ok (false, "5.7.10".toList) ∧
    (mysql "mysql").VerfiyVersion "5.7.10".toList = .ok (true, []) ∧
    (mysql "mysql").VerfiyVersion "6.0.0".toList = .ok (true, []) ∧
    (mysql "mysql").VerfiyVersion "4.9.9".toList = .ok (false, "5.7.10".toList) := by
  decide

/-- C2: with the floor `(10,3,0)` for the variant `mariadb` and `(5,7,10)` for every
other variant, `VerfiyVersion` on the decimal string `a.b.c` (components within the range
of `int`) returns `(true, "")` when `a` exceeds the floor's major component or when `a`
equals it and `b`, `c` are both at least the floor's minor and patch components, and
`(false, floor)` with the floor written `major.minor.patch` in every other case. -/
theorem VerfiyVersion_rule (p : MySQLProvider) (a b c : Nat)
    (ha : a < 2 ^ 63) (hb : b < 2 ^ 63) (hc : c < 2 ^ 63) :
    (p.Variant = "mariadb".toList →
      p.VerfiyVersion (fmt.Sprintf3 a b c) =
        if a > 10 ∨ (a = 10 ∧ b ≥ 3 ∧ c ≥ 0) then .ok (true, "".toList)
        else .ok (false, "10.3.0".toList)) ∧
    (p.Variant ≠ "mariadb".toList →
      p.VerfiyVersion (fmt.Sprintf3 a b c) =
        if a > 5 ∨ (a = 5 ∧ b ≥ 7 ∧ c ≥ 10) then .ok (true, "".toList)
        else .ok (false, "5.7.10".toList)) := by
  have h := VerfiyVersion_of_convert p _ _ _ _ _ (convert_Sprintf3 a b c ha hb hc)
  constructor
  · intro hv
    rw [h, if_pos hv]
    by_cases hd : a > 10 ∨ (a = 10 ∧ b ≥ 3 ∧ c ≥ 0)
    · rw [if_pos hd, if_pos (by omega)]; rfl
    · rw [if_neg hd, if_neg (by omega)]
  · intro hv
    rw [h, if_neg hv]
    by_cases hd : a > 5 ∨ (a = 5 ∧ b ≥ 7 ∧ c ≥ 10)
    · rw [if_pos hd, if_pos (by omega)]; rfl
    · rw [if_neg hd, if_neg (by omega)]

/-- Witness of C2: the MariaDB variant on `10.4.2`, which is the string `fmt.Sprintf3`
renders, passes. -/
theorem VerfiyVersion_rule_witness :
    fmt.Sprintf3 (10 : Nat) (4 : Nat) (2 : Nat) = "10.4.2".toList ∧
    (mysql "mariadb").VerfiyVersion (fmt.Sprintf3 (10 : Nat) (4 : Nat) (2 : Nat)) =
      .ok (true, "".toList) :=
  ⟨by decide,
   ((VerfiyVersion_rule (mysql "mariadb") 10 4 2 (by norm_num) (by norm_num)
      (by norm_num)).1 (by decide)).trans (by decide)⟩

/-- C3: on the decimal string `a.b.c` of three non-negative integers within the range of
`int`, `convertDatabaseVersion` returns the triple `(a,b,c)` and no error. -/
theorem convertDatabaseVersion_decimal (a b c : Nat)
    (ha : a < 2 ^ 63) (hb : b < 2 ^ 63) (hc : c < 2 ^ 63) :
    convertDatabaseVersion (fmt.Sprintf3 a b c) =
      .ok ([(a : Int), (b : Int), (c : Int)], none) :=
  convert_Sprintf3 a b c ha hb hc

/-- Witness of C3 at `8.0.31`. -/
theorem convertDatabaseVersion_decimal_witness :
    fmt.Sprintf3 (8 : Nat) (0 : Nat) (31 : Nat) = "8.0.31".toList ∧
    convertDatabaseVersion (fmt.Sprintf3 (8 : Nat) (0 : Nat) (31 : Nat)) =
      .ok ([8, 0, 31], none) :=
  ⟨by decide, convertDatabaseVersion_decimal 8 0 31 (by norm_num) (by norm_num) (by norm_num)⟩

/-- C4: a suffix that starts with a hyphen is ignored: `a.b.c-s` parses exactly as `a.b.c`,
to the triple `(a,b,c)` with no error, for every suffix `s`. -/
theorem convertDatabaseVersion_suffix (a b c : Nat) (s : List Char)
    (ha : a < 2 ^ 63) (hb : b < 2 ^ 63) (hc : c < 2 ^ 63) :
    convertDatabaseVersion (fmt.Sprintf3 a b c ++ '-' :: s) =
      convertDatabaseVersion (fmt.Sprintf3 a b c) ∧
    convertDatabaseVersion (fmt.Sprintf3 a b c ++ '-' :: s) =
      .ok ([(a : Int), (b : Int), (c : Int)], none) := by
  have h := convert_append_hyphen (fmt.Sprintf3 a b c) s (Sprintf3_no_hyphen a b c)
    (Sprintf3_length a b c)
  exact ⟨h, h.trans (convert_Sprintf3 a b c ha hb hc)⟩

/-- Witness of C4 at `8.0.31-log`. -/
theorem convertDatabaseVersion_suffix_witness :
    fmt.Sprintf3 (8 : Nat) (0 : Nat) (31 : Nat) ++ '-' :: "log".toList = "8.0.31-log".toList ∧
    convertDatabaseVersion (fmt.Sprintf3 (8 : Nat) (0 : Nat) (31 : Nat) ++ '-' :: "log".toList) =
      .ok ([8, 0, 31], none) :=
  ⟨by decide,
   (convertDatabaseVersion_suffix 8 0 31 "log".toList (by norm_num) (by norm_num)
      (by norm_num)).2⟩

/-- C5: a string with fewer than three dot-separated components is rejected with the
error "MySQL version not of the form a.b.c" and the triple `(0,0,0)`. -/
theorem convertDatabaseVersion_too_short (v : List Char)
    (h : (strings.Split v '.').length < 3) :
    convertDatabaseVersion v = .ok ([0, 0, 0], some .notABC) :=
  convert_lt_three v h

/-- Witness of C5 at `5.7`. -/
theorem convertDatabaseVersion_too_short_witness :
    convertDatabaseVersion "5.7".toList = .ok ([0, 0, 0], some .notABC) :=
  convertDatabaseVersion_too_short "5.7".toList (by decide)

/-- C6: a failed parse can return a partially filled triple. On `1.x.3` the first
component is stored before the second one fails to parse, and the triple `(1,0,0)` comes
back together with the error; the sibling failure (fewer than three components, here
`1.x`) returns `(0,0,0)`. -/
theorem convertDatabaseVersion_partial_triple :
    convertDatabaseVersion "1.x.3".toList = .ok ([1, 0, 0], some (.atoi .ErrSyntax)) ∧
    convertDatabaseVersion "1.x".toList = .ok ([0, 0, 0], some .notABC) := by
  decide

/-- C7: `convertDatabaseVersion` faults on a version with four numeric components: on
`1.2.3.4` the loop stores the fourth number at index 3 of the three-element slice, an
index out of range. -/
theorem convertDatabaseVersion_four_components_fault :
    convertDatabaseVersion "1.2.3.4".toList = .error (.indexOutOfRange 3 3) := by
  decide

/-- C8, as stated, fails: `5.7` is rejected by the parser and `0.0.0` is accepted, yet
`VerfiyVersion` returns the same result on both. -/
theorem VerfiyVersion_error_not_surfaced :
    convertDatabaseVersion "5.7".toList = .ok ([0, 0, 0], some .notABC) ∧
    convertDatabaseVersion "0.0.0".toList = .ok ([0, 0, 0], none) ∧
    (mysql "mysql").VerfiyVersion "5.7".toList =
      (mysql "mysql").VerfiyVersion "0.0.0".toList := by
  decide

/-- C8, amended: `VerfiyVersion` discards the parse error. On every string rejected for
having fewer than three dot-separated components it returns the below-minimum result
`(false, floor)`, for every variant, which is also its result on the well-formed
`0.0.0`. -/
theorem VerfiyVersion_too_short (p : MySQLProvider) (v : List Char)
    (h : (strings.Split v '.').length < 3) :
    p.VerfiyVersion v =
      .ok (false, if p.Variant = "mariadb".toList then "10.3.0".toList else "5.7.10".toList) ∧
    p.VerfiyVersion v = p.VerfiyVersion "0.0.0".toList := by
  have h1 := VerfiyVersion_of_convert p v 0 0 0 _ (convert_lt_three v h)
  have h2 := VerfiyVersion_of_convert p "0.0.0".toList 0 0 0 none (by decide)
  refine ⟨?_, h1.trans h2.symm⟩
  rw [h1]
  split <;> simp

/-- Witness of the amended C8 at `5.7`. -/
theorem VerfiyVersion_too_short_witness :
    (mysql "mariadb").VerfiyVersion "5.7".toList = .ok (false, "10.3.0".toList) :=
  ((VerfiyVersion_too_short (mysql "mariadb") "5.7".toList (by decide)).1).trans (by decide)

/-! ## Connection string: the settled properties -/

/-- C9, as stated, fails: in `user:pass@tcp(host:3306)/documize?charset=latin1` the
operator supplies `charset=latin1`; the returned string carries `charset=utf8mb4`, the
required value, and not the operator's parameter. -/
theorem MakeConnectionString_operator_value_dropped :
    "charset=latin1".toList ∈
      paramList "user:pass@tcp(host:3306)/documize?charset=latin1".toList ∧
    (withConn "user:pass@tcp(host:3306)/documize?charset=latin1").MakeConnectionString
        (withConn "").Params =
      .ok ("user:pass@tcp(host:3306)/documize?" ++
        "charset=utf8mb4&parseTime=True&maxAllowedPacket=104857600").toList ∧
    "charset=latin1".toList ∉ paramList ("user:pass@tcp(host:3306)/documize?" ++
        "charset=utf8mb4&parseTime=True&maxAllowedPacket=104857600").toList := by
  decide

/-- C9, amended: the required value wins. For every connection string whose parameter
segment contains a parameter `k=v` with `k` a required key and no further `=`, and for
every order in which the map of required parameters is iterated, the returned string
carries `k` with the required value: `k=<required value>` is in its parameter list, and
`k=v` is in it only when `v` is that required value. -/
theorem MakeConnectionString_required_value (p : MySQLProvider)
    (order : List (List Char × List Char)) (hperm : order.Perm p.Params)
    (k v dflt : List Char) (hk : (k, dflt) ∈ p.Params) (hv : '=' ∉ v)
    (_hin : (k ++ '=' :: v) ∈ paramList p.ConnectionString) :
    ∃ out, p.MakeConnectionString order = .ok out ∧
      (k ++ '=' :: dflt) ∈ paramList out ∧
      ((k ++ '=' :: v) ∈ paramList out → v = dflt) := by
  obtain ⟨out, hout, hpl⟩ := paramList_MakeConnectionString p order hperm
  have hkeq : '=' ∉ k := (Params_facts p).2.1 (k, dflt) hk
  refine ⟨out, hout, ?_, ?_⟩
  · rw [hpl]
    exact List.mem_append_right _ (List.mem_map.2 ⟨(k, dflt), hperm.mem_iff.2 hk, rfl⟩)
  · rw [hpl]
    intro hm
    rcases List.mem_append.1 hm with h | h
    · have hone : (k ++ '=' :: v).count '=' = 1 := by
        rw [List.count_append, List.count_cons_self, List.count_eq_zero_of_not_mem hkeq,
          List.count_eq_zero_of_not_mem hv]
      exact absurd h (not_kept_of_key p _ (k, dflt) hk (keyOf_item k v hkeq) hone)
    · obtain ⟨kw, hkw, heq⟩ := List.mem_map.1 h
      have hkwP : kw ∈ p.Params := hperm.mem_iff.1 hkw
      have hweq : '=' ∉ kw.1 := (Params_facts p).2.1 kw hkwP
      have h1 : kw.1 = k := by
        have := congrArg (List.takeWhile (fun c => decide (c ≠ '='))) heq
        simp only [item] at this
        rw [takeWhile_ne_append _ _ _ hweq, takeWhile_ne_append _ _ _ hkeq] at this
        exact this
      have h2 : kw.2 = v := by
        simp only [item, h1] at heq
        have := List.append_cancel_left heq
        exact (List.cons.inj this).2
      have := (Params_facts p).2.2.2.1 (k, dflt) hk kw hkwP h1.symm
      simp only at this
      rw [← h2, ← this]

/-- Witness of the amended C9 at `db?charset=latin1`. -/
theorem MakeConnectionString_required_value_witness :
    ∃ out, (withConn "db?charset=latin1").MakeConnectionString (withConn "").Params = .ok out ∧
      ("charset".toList ++ '=' :: "utf8mb4".toList) ∈ paramList out ∧
      (("charset".toList ++ '=' :: "latin1".toList) ∈ paramList out →
        "latin1".toList = "utf8mb4".toList) :=
  MakeConnectionString_required_value (withConn "db?charset=latin1") (withConn "").Params
    (List.Perm.refl _) "charset".toList "latin1".toList "utf8mb4".toList
    (by decide) (by decide) (by decide)

/-- C10, as stated, fails: in `db?charset=a=b` the parameter `charset=a=b` has the
required key `charset`; it is passed through because it does not split at `=` into
exactly two pieces, and the returned string has two parameters with the key `charset`. -/
theorem MakeConnectionString_key_twice :
    "charset=a=b".toList ∈ paramList "db?charset=a=b".toList ∧
    keyOf "charset=a=b".toList = some "charset".toList ∧
    (withConn "db?charset=a=b").MakeConnectionString (withConn "").Params =
      .ok "db?charset=a=b&charset=utf8mb4&parseTime=True&maxAllowedPacket=104857600".toList ∧
    countKey "charset".toList (paramList
      "db?charset=a=b&charset=utf8mb4&parseTime=True&maxAllowedPacket=104857600".toList) = 2 := by
  decide

/-- C10, amended: for every connection string, every required key `k` and every order in
which the map of required parameters is iterated, if each parameter of the parameter
segment whose key is `k` contains exactly one `=`, then the parameter list of the
returned string contains exactly one parameter with the key `k`. -/
theorem MakeConnectionString_key_once (p : MySQLProvider)
    (order : List (List Char × List Char)) (hperm : order.Perm p.Params)
    (k dflt : List Char) (hk : (k, dflt) ∈ p.Params)
    (hone : ∀ pb ∈ paramList p.ConnectionString, keyOf pb = some k → pb.count '=' = 1) :
    ∃ out, p.MakeConnectionString order = .ok out ∧ countKey k (paramList out) = 1 := by
  obtain ⟨out, hout, hpl⟩ := paramList_MakeConnectionString p order hperm
  refine ⟨out, hout, ?_⟩
  have hkept : countKey k (kept p) = 0 := by
    apply countKey_eq_zero
    intro pb hpb hkey
    have hin : pb ∈ paramList p.ConnectionString := by
      simp only [kept] at hpb
      split at hpb
      · exact List.mem_of_mem_filter hpb
      · simp at hpb
    exact not_kept_of_key p pb (k, dflt) hk hkey (hone pb hin hkey) hpb
  have hreq : countKey k (order.map item) = 1 := by
    have h1 := (Params_facts p).2.2.2.2 (k, dflt) hk
    have h2 : (order.map item).Perm (p.Params.map item) := hperm.map item
    simp only [countKey] at h1 ⊢
    rw [(h2.filter _).length_eq]
    exact h1
  rw [hpl, countKey_append, hkept, hreq]

/-- Witness of the amended C10 at `db?charset=latin1&x=1`. -/
theorem MakeConnectionString_key_once_witness :
    ∃ out, (withConn "db?charset=latin1&x=1").MakeConnectionString (withConn "").Params =
        .ok out ∧ countKey "charset".toList (paramList out) = 1 :=
  MakeConnectionString_key_once (withConn "db?charset=latin1&x=1") (withConn "").Params
    (List.Perm.refl _) "charset".toList "utf8mb4".toList (by decide) (by decide)

/-! ## Lemmas: `DatabaseName` -/

namespace strings

theorem Split_append (a b : List Char) (sep : Char) :
    Split (a ++ sep :: b) sep = Split a sep ++ Split b sep := by
  induction a with
  | nil => simp [Split]
  | cons c cs ih =>
    by_cases hc : c = sep
    · subst hc; simp [Split, ih]
    · have hne := Split_ne_nil cs sep
      cases hS : Split cs sep with
      | nil => exact absurd hS hne
      | cons x xs =>
        rw [List.cons_append]
        simp only [Split, hc, if_false]
        rw [ih, hS]
        simp

theorem exists_last_sep (s : List Char) (sep : Char) (h : sep ∈ s) :
    ∃ pre t, s = pre ++ sep :: t ∧ sep ∉ t := by
  induction s with
  | nil => simp at h
  | cons c cs ih =>
    by_cases hm : sep ∈ cs
    · obtain ⟨pre, t, rfl, ht⟩ := ih hm
      exact ⟨c :: pre, t, rfl, ht⟩
    · rcases List.mem_cons.1 h with h1 | h1
      · subst h1; exact ⟨[], cs, rfl, hm⟩
      · exact absurd h1 hm

theorem Contains_iff (s sub : List Char) : Contains s sub = true ↔ sub <:+: s := by
  induction s with
  | nil => simp [Contains, List.isEmpty_iff]
  | cons c cs ih =>
    simp only [Contains, Bool.or_eq_true, ih, List.isPrefixOf_iff_prefix]
    exact List.infix_cons_iff.symm

theorem TrimSpace_within (s : List Char) : TrimSpace s <:+: s := by
  have h1 : (s.dropWhile IsSpace) <:+: s := (List.dropWhile_suffix _).isInfix
  have h2 : ((s.dropWhile IsSpace).reverse.dropWhile IsSpace) <:+:
      (s.dropWhile IsSpace).reverse := (List.dropWhile_suffix _).isInfix
  have h3 := List.reverse_infix.2 h2
  rw [List.reverse_reverse] at h3
  exact h3.trans h1

theorem dropWhile_of_none (s : List Char) (h : ∀ c ∈ s, IsSpace c = false) :
    s.dropWhile IsSpace = s := by
  cases s with
  | nil => rfl
  | cons c cs => simp [List.dropWhile_cons, h c (by simp)]

theorem TrimSpace_of_no_space (s : List Char) (h : ∀ c ∈ s, IsSpace c = false) :
    TrimSpace s = s := by
  have hr : ∀ c ∈ s.reverse, IsSpace c = false := fun c hc => h c (List.mem_reverse.1 hc)
  simp only [TrimSpace, dropWhile_of_none s h, dropWhile_of_none s.reverse hr,
    List.reverse_reverse]

end strings

theorem index_last {α : Type} (l : List α) (t : α) :
    index (l ++ [t]) ((l ++ [t]).length - 1) = .ok t := by
  simp [index]

/-- The database name of a connection string split at its last `/`. -/
theorem DatabaseName_of_last (p : MySQLProvider) (pre t : List Char)
    (hcs : p.ConnectionString = pre ++ '/' :: t) (ht : '/' ∉ t) :
    p.DatabaseName = .ok (t.takeWhile (fun c => c ≠ '?')) := by
  have hne := strings.Split_ne_nil pre '/'
  have hlen : (strings.Split pre '/' ++ [t]).length > 1 := by
    have : 0 < (strings.Split pre '/').length := List.length_pos.2 hne
    simp only [List.length_append, List.length_cons, List.length_nil]
    omega
  simp only [MySQLProvider.DatabaseName, hcs, strings.Split_append,
    strings.Split_of_not_mem t '/' ht]
  rw [if_pos hlen]
  simp only [index_last, bind, Except.bind, index_zero_Split]

theorem Contains_TrimSpace_false (b sub : List Char)
    (h : strings.Contains b sub = false) :
    strings.Contains (strings.TrimSpace b) sub = false := by
  by_contra hc
  have hc1 : strings.Contains (strings.TrimSpace b) sub = true := by simpa using hc
  have := ((strings.Contains_iff _ _).1 hc1).trans (strings.TrimSpace_within b)
  rw [(strings.Contains_iff _ _).2 this] at h
  exact absurd h (by simp)

theorem dbnameLoop_append (before : List (List Char)) (tok : List Char)
    (after : List (List Char))
    (hfirst : ∀ t ∈ before, strings.Contains t "dbname=".toList = false) :
    dbnameLoop (before ++ tok :: after) = dbnameLoop (tok :: after) := by
  induction before with
  | nil => rfl
  | cons b bs ih =>
    have hb := Contains_TrimSpace_false b _ (hfirst b (by simp))
    simp only [List.cons_append, dbnameLoop, hb]
    exact ih (fun t ht => hfirst t (List.mem_cons_of_mem _ ht))

theorem dbnameLoop_of_none (bits : List (List Char))
    (h : ∀ t ∈ bits, strings.Contains t "dbname=".toList = false) : dbnameLoop bits = [] := by
  induction bits with
  | nil => rfl
  | cons b bs ih =>
    have hb := Contains_TrimSpace_false b _ (h b (by simp))
    simp only [dbnameLoop, hb]
    exact ih (fun t ht => h t (List.mem_cons_of_mem _ ht))

theorem Split_piece_within (s : List Char) (sep : Char) : ∀ x ∈ strings.Split s sep, x <:+: s := by
  induction s with
  | nil => simp [strings.Split]
  | cons c cs ih =>
    intro x hx
    by_cases hc : c = sep
    · simp only [strings.Split, hc, if_true, List.mem_cons] at hx
      rcases hx with hx | hx
      · rw [hx]; exact List.nil_infix
      · exact (ih x hx).trans (List.suffix_cons c cs).isInfix
    · simp only [strings.Split, hc, if_false, List.mem_cons] at hx
      rcases hx with hx | hx
      · rw [hx, strings.Split_headD]
        exact ((List.prefix_cons_inj c).2 (List.takeWhile_prefix _)).isInfix
      · exact (ih x (List.mem_of_mem_tail hx)).trans (List.suffix_cons c cs).isInfix

theorem dbname_token (N : List Char) (hN : ∀ c ∈ N, strings.IsSpace c = false)
    (after : List (List Char)) :
    dbnameLoop (("dbname=".toList ++ N) :: after) = N := by
  have htok : "dbname=".toList ++ N = 'd' :: 'b' :: 'n' :: 'a' :: 'm' :: 'e' :: '=' :: N := rfl
  have hsp : ∀ c ∈ "dbname=".toList ++ N, strings.IsSpace c = false := by
    intro c hc
    rcases List.mem_append.1 hc with h | h
    · have : ∀ x ∈ "dbname=".toList, strings.IsSpace x = false := by decide
      exact this c h
    · exact hN c h
  have hcont : strings.Contains ("dbname=".toList ++ N) "dbname=".toList = true :=
    (strings.Contains_iff _ _).2 (List.prefix_append _ _).isInfix
  simp only [dbnameLoop, strings.TrimSpace_of_no_space _ hsp, hcont, if_true]
  rw [htok]
  simp [strings.ReplaceFirst, List.isPrefixOf]

/-! ## Connection string and database name: the settled properties -/

/-- C11: for a connection string `s` without `?`, `MakeConnectionString` returns `s`, a
`?`, and the three required parameters `charset=utf8mb4`, `parseTime=True` and
`maxAllowedPacket=104857600`, each once, in the order the map yields them, joined by `&`,
and nothing else. -/
theorem MakeConnectionString_no_params (p : MySQLProvider)
    (order : List (List Char × List Char)) (hperm : order.Perm p.Params)
    (hq : '?' ∉ p.ConnectionString) :
    ∃ a b c, [a, b, c].Perm ["charset=utf8mb4".toList, "parseTime=True".toList,
        "maxAllowedPacket=104857600".toList] ∧
      p.MakeConnectionString order =
        .ok (p.ConnectionString ++ '?' :: (a ++ '&' :: (b ++ '&' :: c))) := by
  have hlen : order.length = 3 := hperm.length_eq
  have hkept : kept p = [] := by
    simp [kept, strings.Split_of_not_mem _ _ hq]
  have htw : p.ConnectionString.takeWhile (fun c => c ≠ '?') = p.ConnectionString := by
    rw [List.takeWhile_eq_self_iff]
    intro c hc
    have : c ≠ '?' := fun e => hq (e ▸ hc)
    simpa using this
  match order, hlen, hperm with
  | [x, y, z], _, hperm =>
    refine ⟨item x, item y, item z, hperm.map item, ?_⟩
    rw [MakeConnectionString_eq, hkept, htw]
    simp [joinAmp]

/-- Witness of C11 at `u:p@tcp(h:3306)/db`. -/
theorem MakeConnectionString_no_params_witness :
    ∃ a b c, [a, b, c].Perm ["charset=utf8mb4".toList, "parseTime=True".toList,
        "maxAllowedPacket=104857600".toList] ∧
      (withConn "u:p@tcp(h:3306)/db").MakeConnectionString (withConn "").Params =
        .ok ((withConn "u:p@tcp(h:3306)/db").ConnectionString ++
          '?' :: (a ++ '&' :: (b ++ '&' :: c))) :=
  MakeConnectionString_no_params (withConn "u:p@tcp(h:3306)/db") (withConn "").Params
    (List.Perm.refl _) (by decide)

theorem lookup_of_no_key (l : List (List Char × List Char)) (k : List Char)
    (h : ∀ kv ∈ l, k ≠ kv.1) : l.lookup k = none := by
  induction l with
  | nil => rfl
  | cons kv rest ih =>
    obtain ⟨a, b⟩ := kv
    have h1 : (k == a) = false := by
      have := h (a, b) (by simp)
      simpa using this
    simp only [List.lookup, h1]
    exact ih (fun kv hkv => h kv (List.mem_cons_of_mem _ hkv))

/-- C12, as stated, fails: `db?x=1?y=2` has the existing-parameter segment `x=1?y=2`
after its first `?`, one parameter whose key `x` is not a required key; the returned
string holds the required parameters only, the existing parameter is gone. -/
theorem MakeConnectionString_second_question_mark :
    paramList "db?x=1?y=2".toList = ["x=1?y=2".toList] ∧
    keyOf "x=1?y=2".toList = some "x".toList ∧
    (withConn "db?x=1?y=2").MakeConnectionString (withConn "").Params =
      .ok "db?charset=utf8mb4&parseTime=True&maxAllowedPacket=104857600".toList ∧
    "x=1?y=2".toList ∉
      paramList "db?charset=utf8mb4&parseTime=True&maxAllowedPacket=104857600".toList := by
  decide

/-- C12, amended: for every connection string with at most one `?`, the text before the
`?` is kept unchanged, and the parameter list of the returned string is the existing
parameters, verbatim and in their order, without those that `found` recognises, followed
by the required parameters. A parameter is recognised only if it has exactly one `=` and
the text before it, trimmed of white space, is a required key; every other parameter is
passed through. -/
theorem MakeConnectionString_pass_through (p : MySQLProvider)
    (order : List (List Char × List Char)) (hperm : order.Perm p.Params)
    (hq : p.ConnectionString.count '?' ≤ 1) :
    ∃ out, p.MakeConnectionString order = .ok out ∧
      out.takeWhile (fun c => c ≠ '?') = p.ConnectionString.takeWhile (fun c => c ≠ '?') ∧
      paramList out =
        (existingParams p.ConnectionString).filter (fun pb => !isRequired p.Params pb) ++
          order.map item ∧
      (∀ pb : List Char, pb.count '=' ≠ 1 → isRequired p.Params pb = false) ∧
      (∀ pb : List Char,
        (∀ kv ∈ p.Params, strings.TrimSpace (pb.takeWhile (fun c => c ≠ '=')) ≠ kv.1) →
        isRequired p.Params pb = false) := by
  obtain ⟨out, hout, hpl⟩ := paramList_MakeConnectionString p order hperm
  have hb : '?' ∉ p.ConnectionString.takeWhile (fun c => c ≠ '?') := by
    intro hm
    have := List.mem_takeWhile_imp hm
    simp at this
  have hform := MakeConnectionString_eq p order
  rw [hout] at hform
  have hout2 := Except.ok.inj hform
  have hkept : kept p =
      (existingParams p.ConnectionString).filter (fun pb => !isRequired p.Params pb) := by
    simp only [kept, existingParams, strings.Split_length]
    by_cases hm : '?' ∈ p.ConnectionString
    · have := List.count_pos_iff.2 hm
      have h1 : p.ConnectionString.count '?' + 1 = 2 := by omega
      rw [if_pos h1, if_pos hm]
    · have h0 := List.count_eq_zero_of_not_mem hm
      have h1 : ¬ p.ConnectionString.count '?' + 1 = 2 := by omega
      rw [if_neg h1, if_neg hm]
      rfl
  refine ⟨out, hout, ?_, ?_, ?_, ?_⟩
  · rw [hout2]
    exact takeWhile_ne_append _ _ '?' hb
  · rw [hpl, hkept]
  · intro pb hpb
    have : ¬ (strings.Split pb '=').length = 2 := by
      rw [strings.Split_length]; omega
    simp [isRequired, this]
  · intro pb hpb
    simp only [isRequired, lookup_of_no_key _ _ hpb, Option.isSome_none, Bool.and_false]

/-- Witness of the amended C12 at `db?x=1&charset=latin1&y=2`. -/
theorem MakeConnectionString_pass_through_witness :
    ∃ out, (withConn "db?x=1&charset=latin1&y=2").MakeConnectionString
        (withConn "").Params = .ok out ∧
      out.takeWhile (fun c => c ≠ '?') = "db".toList ∧
      paramList out = ["x=1".toList, "y=2".toList, "charset=utf8mb4".toList,
        "parseTime=True".toList, "maxAllowedPacket=104857600".toList] := by
  obtain ⟨out, h1, h2, h3, _⟩ := MakeConnectionString_pass_through
    (withConn "db?x=1&charset=latin1&y=2") (withConn "").Params (List.Perm.refl _)
    (by decide)
  exact ⟨out, h1, h2.trans (by decide), h3.trans (by decide)⟩

theorem dropWhile_ne_head (s : List Char) (sep : Char) :
    s.dropWhile (fun c => c ≠ sep) = [] ∨
      ∃ r, s.dropWhile (fun c => c ≠ sep) = sep :: r := by
  induction s with
  | nil => left; rfl
  | cons c cs ih =>
    by_cases hc : c = sep
    · right; subst hc; exact ⟨cs, by simp⟩
    · simpa [List.dropWhile_cons, hc] using ih

/-- C13: a MySQL connection string that contains a `/` is `pre/name rest`, where `name`
and `rest` have no `/` (the `/` shown is the final one), `name` has no `?`, and `rest` is
empty or starts with `?`; `DatabaseName` returns `name`. -/
theorem DatabaseName_after_last_slash (p : MySQLProvider) (h : '/' ∈ p.ConnectionString) :
    ∃ pre name rest, p.ConnectionString = pre ++ '/' :: (name ++ rest) ∧
      '/' ∉ name ++ rest ∧ '?' ∉ name ∧ (rest = [] ∨ ∃ r, rest = '?' :: r) ∧
      p.DatabaseName = .ok name := by
  obtain ⟨pre, t, hcs, ht⟩ := strings.exists_last_sep _ _ h
  refine ⟨pre, t.takeWhile (fun c => c ≠ '?'), t.dropWhile (fun c => c ≠ '?'), ?_, ?_, ?_,
    dropWhile_ne_head t '?', DatabaseName_of_last p pre t hcs ht⟩
  · rw [List.takeWhile_append_dropWhile]; exact hcs
  · rw [List.takeWhile_append_dropWhile]; exact ht
  · intro hm
    have := List.mem_takeWhile_imp hm
    simp at this

/-- Witness of C13 at `user:pass@tcp(host:3306)/documize?parseTime=true`, where the name
is `documize`. -/
theorem DatabaseName_after_last_slash_witness :
    (∃ pre name rest,
      (withConn "user:pass@tcp(host:3306)/documize?parseTime=true").ConnectionString =
        pre ++ '/' :: (name ++ rest) ∧
      '/' ∉ name ++ rest ∧ '?' ∉ name ∧ (rest = [] ∨ ∃ r, rest = '?' :: r) ∧
      (withConn "user:pass@tcp(host:3306)/documize?parseTime=true").DatabaseName =
        .ok name) ∧
    (withConn "user:pass@tcp(host:3306)/documize?parseTime=true").DatabaseName =
      .ok "documize".toList :=
  ⟨DatabaseName_after_last_slash
    (withConn "user:pass@tcp(host:3306)/documize?parseTime=true") (by decide), by decide⟩

/-- C14: when the space-separated tokens of a PostgreSQL connection string are `before`,
then `dbname=N`, then `after`, no token of `before` contains `dbname=` and `N` has no
white space, `DatabaseName` returns `N`, wherever the token stands. -/
theorem DatabaseName_dbname_token (p : PostgreSQLProvider)
    (before after : List (List Char)) (N : List Char)
    (hsplit : strings.Split p.ConnectionString ' ' =
      before ++ ("dbname=".toList ++ N) :: after)
    (hfirst : ∀ t ∈ before, strings.Contains t "dbname=".toList = false)
    (hN : ∀ c ∈ N, strings.IsSpace c = false) :
    p.DatabaseName = N := by
  simp only [PostgreSQLProvider.DatabaseName, hsplit]
  rw [dbnameLoop_append before _ after hfirst]
  exact dbname_token N hN after

/-- Witness of C14 at `host=localhost dbname=documize sslmode=disable`. -/
theorem DatabaseName_dbname_token_witness :
    (pgConn "host=localhost dbname=documize sslmode=disable").DatabaseName =
      "documize".toList :=
  DatabaseName_dbname_token (pgConn "host=localhost dbname=documize sslmode=disable")
    ["host=localhost".toList] ["sslmode=disable".toList] "documize".toList
    (by decide) (by decide) (by decide)

/-- C15: `DatabaseName` soft-fails. For a MySQL connection string without `/` it returns
the empty string, and on every connection string it returns a string without fault; for a
PostgreSQL connection string in which `dbname=` does not occur it returns the empty
string (the PostgreSQL function has no operation that can fault). -/
theorem DatabaseName_soft_fail (cs variant : List Char) :
    ('/' ∉ cs → (MySQLProvider.mk cs variant).DatabaseName = .ok []) ∧
    (∃ name, (MySQLProvider.mk cs variant).DatabaseName = .ok name) ∧
    (strings.Contains cs "dbname=".toList = false →
      (PostgreSQLProvider.mk cs variant).DatabaseName = []) := by
  have h1 : '/' ∉ cs → (MySQLProvider.mk cs variant).DatabaseName = .ok [] := by
    intro h
    simp only [MySQLProvider.DatabaseName, strings.Split_of_not_mem _ _ h]
    rfl
  refine ⟨h1, ?_, ?_⟩
  · by_cases h : '/' ∈ cs
    · obtain ⟨pre, t, hcs, ht⟩ := strings.exists_last_sep _ _ h
      exact ⟨_, DatabaseName_of_last (MySQLProvider.mk cs variant) pre t hcs ht⟩
    · exact ⟨[], h1 h⟩
  · intro h
    apply dbnameLoop_of_none
    intro t ht
    by_contra hc
    have hc1 : strings.Contains t "dbname=".toList = true := by simpa using hc
    have := ((strings.Contains_iff _ _).1 hc1).trans (Split_piece_within _ _ t ht)
    rw [(strings.Contains_iff _ _).2 this] at h
    exact absurd h (by simp)

/-- Witness of C15 at `localhost` (MySQL) and `host=localhost sslmode=disable`
(PostgreSQL). -/
theorem DatabaseName_soft_fail_witness :
    (MySQLProvider.mk "localhost".toList []).DatabaseName = .ok [] ∧
    (PostgreSQLProvider.mk "host=localhost sslmode=disable".toList []).DatabaseName = [] :=
  ⟨(DatabaseName_soft_fail "localhost".toList []).1 (by decide),
   (DatabaseName_soft_fail "host=localhost sslmode=disable".toList []).2.2 (by decide)⟩

/-- C20: a malformed version can pass the check. `6.x.y` is rejected by
`convertDatabaseVersion`, which returns the partly filled triple `(6,0,0)` with the
error; `VerfiyVersion` drops the error, finds the major component above the floor and
returns `(true, "")`. The same happens for the MariaDB floor on `11.x.y`. -/
theorem VerfiyVersion_malformed_accepted :
    convertDatabaseVersion "6.x.y".toList = .ok ([6, 0, 0], some (.atoi .ErrSyntax)) ∧
    (mysql "mysql").VerfiyVersion "6.x.y".toList = .ok (true, []) ∧
    convertDatabaseVersion "11.x.y".toList = .ok ([11, 0, 0], some (.atoi .ErrSyntax)) ∧
    (mysql "mariadb").VerfiyVersion "11.x.y".toList = .ok (true, []) := by
  decide

/-! ## Lemmas: letter case -/

theorem ascii_case_codes : ∀ n < 128,
    (Char.ofNat n).toLower.toNat < 128 ∧ (Char.ofNat n).toUpper.toNat < 128 ∧
    (Char.ofNat n).toLower.toLower = (Char.ofNat n).toLower ∧
    (Char.ofNat n).toUpper.toLower = (Char.ofNat n).toLower ∧
    (∀ x ∈ "utf8mb4".toList, (Char.ofNat n).toLower = x → Char.ofNat n ∈ utf8Letters) := by
  decide

theorem ascii_case (c : Char) (h : c.toNat < 128) :
    c.toLower.toNat < 128 ∧ c.toUpper.toNat < 128 ∧
    c.toLower.toLower = c.toLower ∧ c.toUpper.toLower = c.toLower ∧
    (∀ x ∈ "utf8mb4".toList, c.toLower = x → c ∈ utf8Letters) := by
  have := ascii_case_codes c.toNat h
  rw [Char.ofNat_toNat] at this
  exact this

theorem utf8mb4_sub : ∀ x ∈ "utf8mb4".toList, x ∈ utf8Letters := by
  decide

theorem utf8_sub : ∀ x ∈ "utf8".toList, x ∈ "utf8mb4".toList := by
  decide

theorem asciiTables_Apart : asciiTables.Apart := by
  intro c hc
  have h : ∀ x ∈ utf8Letters, x.toNat < 128 := by decide
  have hn : c ∉ utf8Letters := fun hm => by have := h c hm; omega
  exact ⟨hn, hn⟩

namespace strings

/-- A code point that is not a letter or digit of `utf8mb4` is not lowered to one. -/
theorem lowerRune_ne (tbl : CaseTables) (htbl : tbl.Apart) (w : Char)
    (hw : w ∉ utf8Letters) (x : Char) (hx : x ∈ "utf8mb4".toList) : lowerRune tbl w ≠ x := by
  intro h
  simp only [lowerRune] at h
  split at h
  · rename_i ha
    exact hw ((ascii_case w ha).2.2.2.2 x hx h)
  · rename_i ha
    have := (htbl w (by omega)).1
    rw [h] at this
    exact this (utf8mb4_sub x hx)

theorem lowerRune_lowerRune (tbl : CaseTables) (htbl : tbl.Apart) (c x : Char)
    (hx : x ∈ "utf8mb4".toList) :
    lowerRune tbl (lowerRune tbl c) = x ↔ lowerRune tbl c = x := by
  by_cases ha : c.toNat < 128
  · have hc := ascii_case c ha
    have : lowerRune tbl (lowerRune tbl c) = lowerRune tbl c := by
      simp only [lowerRune, ha, if_true, hc.1, hc.2.2.1]
    rw [this]
  · have hy : lowerRune tbl c ∉ utf8Letters := by
      simp only [lowerRune, ha, if_false]
      exact (htbl c (by omega)).1
    constructor
    · intro h; exact absurd h (lowerRune_ne tbl htbl _ hy x hx)
    · intro h; rw [h] at hy; exact absurd (utf8mb4_sub x hx) hy

theorem lowerRune_upperRune (tbl : CaseTables) (htbl : tbl.Apart) (c x : Char)
    (hx : x ∈ "utf8mb4".toList) :
    lowerRune tbl (upperRune tbl c) = x ↔ lowerRune tbl c = x := by
  by_cases ha : c.toNat < 128
  · have hc := ascii_case c ha
    have : lowerRune tbl (upperRune tbl c) = lowerRune tbl c := by
      simp only [lowerRune, upperRune, ha, if_true, hc.2.1, hc.2.2.2.1]
    rw [this]
  · have hy : lowerRune tbl c ∉ utf8Letters := by
      simp only [lowerRune, ha, if_false]
      exact (htbl c (by omega)).1
    have hz : upperRune tbl c ∉ utf8Letters := by
      simp only [upperRune, ha, if_false]
      exact (htbl c (by omega)).2
    constructor
    · intro h; exact absurd h (lowerRune_ne tbl htbl _ hz x hx)
    · intro h; rw [h] at hy; exact absurd (utf8mb4_sub x hx) hy

/-- Two mappings that hit the characters of `t` on the same code points give the same
answers to `= t` and to `HasPrefix _ t`. -/
theorem map_agree (f g : Char → Char) (t : List Char)
    (h : ∀ c, ∀ x ∈ t, f c = x ↔ g c = x) (s : List Char) :
    (s.map f = t ↔ s.map g = t) ∧ (HasPrefix (s.map f) t = HasPrefix (s.map g) t) := by
  induction s generalizing t with
  | nil => simp [HasPrefix]
  | cons c cs ih =>
    cases t with
    | nil => simp [HasPrefix]
    | cons x xs =>
      have hx := h c x (by simp)
      have ht := ih xs (fun c y hy => h c y (List.mem_cons_of_mem _ hy))
      constructor
      · simp only [List.map_cons, List.cons.injEq, hx, ht.1]
      · have h2 := ht.2
        simp only [HasPrefix] at h2 ⊢
        simp only [List.map_cons, List.isPrefixOf, h2]
        have : (x == f c) = (x == g c) := by
          rw [Bool.eq_iff_iff]
          simp only [beq_iff_eq]
          constructor
          · intro e; exact (hx.1 e.symm).symm
          · intro e; exact (hx.2 e.symm).symm
        rw [this]

end strings

theorem mysql_flag (p : MySQLProvider) (tbl : CaseTables) (charset collation : List Char) :
    (p.VerfiyCharacterCollation tbl charset collation).1 =
      (decide (strings.ToLower tbl charset = "utf8".toList ∨
          strings.ToLower tbl charset = "utf8mb4".toList) &&
        strings.HasPrefix (strings.ToLower tbl collation) "utf8".toList) := by
  simp only [MySQLProvider.VerfiyCharacterCollation]
  by_cases hcs : strings.ToLower tbl charset ≠ "utf8".toList ∧
      strings.ToLower tbl charset ≠ "utf8mb4".toList
  · have hor : ¬ (strings.ToLower tbl charset = "utf8".toList ∨
        strings.ToLower tbl charset = "utf8mb4".toList) := by
      rintro (h | h)
      · exact hcs.1 h
      · exact hcs.2 h
    rw [if_pos hcs, decide_eq_false hor]
    rfl
  · have hor : strings.ToLower tbl charset = "utf8".toList ∨
        strings.ToLower tbl charset = "utf8mb4".toList := by
      by_contra h
      exact hcs ⟨fun e => h (Or.inl e), fun e => h (Or.inr e)⟩
    rw [if_neg hcs, decide_eq_true hor]
    generalize strings.HasPrefix (strings.ToLower tbl collation) "utf8".toList = b
    cases b <;> rfl

theorem pg_flag (p : PostgreSQLProvider) (tbl : CaseTables) (charset collation : List Char) :
    (p.VerfiyCharacterCollation tbl charset collation).1 =
      decide (strings.ToLower tbl charset = "utf8".toList) := by
  simp only [PostgreSQLProvider.VerfiyCharacterCollation]
  by_cases h1 : strings.ToLower tbl charset = "utf8".toList
  · rw [if_neg (not_not.2 h1), decide_eq_true h1]
  · rw [if_pos h1, decide_eq_false h1]

/-- Lower-casing or upper-casing a string first does not change whether its lower-cased
form is `utf8` or `utf8mb4`, or starts with `utf8`. -/
theorem ToLower_case (tbl : CaseTables) (htbl : tbl.Apart) (s t : List Char)
    (ht : ∀ x ∈ t, x ∈ "utf8mb4".toList) :
    ((strings.ToLower tbl (strings.ToLower tbl s) = t ↔ strings.ToLower tbl s = t) ∧
      strings.HasPrefix (strings.ToLower tbl (strings.ToLower tbl s)) t =
        strings.HasPrefix (strings.ToLower tbl s) t) ∧
    ((strings.ToLower tbl (strings.ToUpper tbl s) = t ↔ strings.ToLower tbl s = t) ∧
      strings.HasPrefix (strings.ToLower tbl (strings.ToUpper tbl s)) t =
        strings.HasPrefix (strings.ToLower tbl s) t) := by
  simp only [strings.ToLower, strings.ToUpper, List.map_map]
  exact ⟨strings.map_agree _ _ t
      (fun c x hx => strings.lowerRune_lowerRune tbl htbl c x (ht x hx)) s,
    strings.map_agree _ _ t
      (fun c x hx => strings.lowerRune_upperRune tbl htbl c x (ht x hx)) s⟩

/-! ## Character set and collation: the settled properties -/

/-- On `("UTF8", "en_US.utf8")` the MySQL check fails whatever the case tables outside
ASCII are: both strings are ASCII. -/
theorem mysql_en_US_any_tables (tbl : CaseTables) :
    (mysql "mysql").VerfiyCharacterCollation tbl "UTF8".toList "en_US.utf8".toList =
      (false, "MySQL collation sequence needs to be utf8".toList) :=
  rfl

/-- On `("latin1", "")` the MySQL check fails with its charset message whatever the case
tables outside ASCII are. -/
theorem mysql_latin1_any_tables (tbl : CaseTables) :
    (mysql "mysql").VerfiyCharacterCollation tbl "latin1".toList [] =
      (false, "MySQL character needs to be utf8/utf8mb4".toList) :=
  rfl

/-- C16, as stated, fails: for the MySQL provider `VerfiyCharacterCollation("UTF8",
"en_US.utf8")` returns `(false, "MySQL collation sequence needs to be utf8")`: the
lower-cased collation `en_us.utf8` does not start with `utf8`. -/
theorem VerfiyCharacterCollation_en_US_rejected :
    (mysql "mysql").VerfiyCharacterCollation asciiTables "UTF8".toList "en_US.utf8".toList =
      (false, "MySQL collation sequence needs to be utf8".toList) :=
  mysql_en_US_any_tables asciiTables

/-- C16, amended: the MySQL provider accepts a charset whose lower-cased form is `utf8`
or `utf8mb4` together with a collation whose lower-cased form starts with `utf8`, such as
`("UTF8", "utf8_general_ci")`, and returns `(true, "")`. -/
theorem VerfiyCharacterCollation_accepts (p : MySQLProvider) (tbl : CaseTables)
    (charset collation : List Char)
    (hcs : strings.ToLower tbl charset = "utf8".toList ∨
      strings.ToLower tbl charset = "utf8mb4".toList)
    (hco : strings.HasPrefix (strings.ToLower tbl collation) "utf8".toList = true) :
    p.VerfiyCharacterCollation tbl charset collation = (true, []) := by
  have h1 : ¬ (strings.ToLower tbl charset ≠ "utf8".toList ∧
      strings.ToLower tbl charset ≠ "utf8mb4".toList) := by
    rintro ⟨h1, h2⟩
    rcases hcs with h | h
    · exact h1 h
    · exact h2 h
  simp only [MySQLProvider.VerfiyCharacterCollation]
  rw [if_neg h1, hco]
  rfl

/-- Witness of the amended C16 at `("UTF8", "utf8_general_ci")`. -/
theorem VerfiyCharacterCollation_accepts_witness :
    (mysql "mysql").VerfiyCharacterCollation asciiTables "UTF8".toList
      "utf8_general_ci".toList = (true, []) :=
  VerfiyCharacterCollation_accepts (mysql "mysql") asciiTables "UTF8".toList
    "utf8_general_ci".toList (by decide) (by decide)

/-- C17, as stated, fails: for the MySQL provider `VerfiyCharacterCollation("latin1", "")`
fails with the reason `MySQL character needs to be utf8/utf8mb4`, in which `latin1` does
not occur. -/
theorem VerfiyCharacterCollation_reason_without_value :
    (mysql "mysql").VerfiyCharacterCollation asciiTables "latin1".toList [] =
      (false, "MySQL character needs to be utf8/utf8mb4".toList) ∧
    strings.Contains "MySQL character needs to be utf8/utf8mb4".toList
      "latin1".toList = false :=
  ⟨mysql_latin1_any_tables asciiTables, by decide⟩

/-- C17, amended: when the PostgreSQL provider returns `ok=false`, the reason contains
the rejected charset as it was passed; when the MySQL provider returns `ok=false`, the
reason is one of its two fixed requirement messages, for the charset or for the
collation. -/
theorem VerfiyCharacterCollation_reason (pm : MySQLProvider) (pp : PostgreSQLProvider)
    (tbl : CaseTables) (charset collation : List Char) :
    ((pp.VerfiyCharacterCollation tbl charset collation).1 = false →
      strings.Contains (pp.VerfiyCharacterCollation tbl charset collation).2 charset = true) ∧
    ((pm.VerfiyCharacterCollation tbl charset collation).1 = false →
      (pm.VerfiyCharacterCollation tbl charset collation).2 =
          "MySQL character needs to be utf8/utf8mb4".toList ∨
        (pm.VerfiyCharacterCollation tbl charset collation).2 =
          "MySQL collation sequence needs to be utf8".toList) := by
  constructor
  · intro h
    simp only [PostgreSQLProvider.VerfiyCharacterCollation] at h ⊢
    split at h
    · rename_i hne
      rw [if_pos hne]
      exact (strings.Contains_iff _ _).2 (List.suffix_append _ _).isInfix
    · simp at h
  · intro h
    simp only [MySQLProvider.VerfiyCharacterCollation] at h ⊢
    split
    · left; rfl
    · split
      · right; rfl
      · rename_i h1 h2
        rw [if_neg h1, if_neg h2] at h
        simp at h

/-- Witness of the amended C17 at `("latin1", "")`: the PostgreSQL reason contains
`latin1`. -/
theorem VerfiyCharacterCollation_reason_witness :
    strings.Contains
      ((pgConn "").VerfiyCharacterCollation asciiTables "latin1".toList []).2
      "latin1".toList = true :=
  (VerfiyCharacterCollation_reason (mysql "mysql") (pgConn "") asciiTables
    "latin1".toList []).1 (by decide)

/-- C18: `VerfiyCharacterCollation` is case-insensitive. For both providers the ok flag
for `(charset, collation)` equals the ok flag for their lower-cased and for their
upper-cased forms, and for the PostgreSQL provider the flag is the same for every
collation. The case tables outside ASCII are any tables that never produce a letter or
digit of `utf8mb4`. -/
theorem VerfiyCharacterCollation_case_insensitive (pm : MySQLProvider)
    (pp : PostgreSQLProvider) (tbl : CaseTables) (htbl : tbl.Apart)
    (charset collation : List Char) :
    (pm.VerfiyCharacterCollation tbl (strings.ToLower tbl charset)
        (strings.ToLower tbl collation)).1 =
      (pm.VerfiyCharacterCollation tbl charset collation).1 ∧
    (pm.VerfiyCharacterCollation tbl (strings.ToUpper tbl charset)
        (strings.ToUpper tbl collation)).1 =
      (pm.VerfiyCharacterCollation tbl charset collation).1 ∧
    (pp.VerfiyCharacterCollation tbl (strings.ToLower tbl charset)
        (strings.ToLower tbl collation)).1 =
      (pp.VerfiyCharacterCollation tbl charset collation).1 ∧
    (pp.VerfiyCharacterCollation tbl (strings.ToUpper tbl charset)
        (strings.ToUpper tbl collation)).1 =
      (pp.VerfiyCharacterCollation tbl charset collation).1 ∧
    (∀ other : List Char, (pp.VerfiyCharacterCollation tbl charset other).1 =
      (pp.VerfiyCharacterCollation tbl charset collation).1) := by
  have h4 := ToLower_case tbl htbl charset "utf8".toList utf8_sub
  have h7 := ToLower_case tbl htbl charset "utf8mb4".toList (fun x hx => hx)
  have hc := ToLower_case tbl htbl collation "utf8".toList utf8_sub
  refine ⟨?_, ?_, ?_, ?_, ?_⟩
  · simp only [mysql_flag, h4.1.1, h7.1.1, hc.1.2]
  · simp only [mysql_flag, h4.2.1, h7.2.1, hc.2.2]
  · simp only [pg_flag, h4.1.1]
  · simp only [pg_flag, h4.2.1]
  · intro other
    simp only [pg_flag]

/-- Witness of C18: `UTF8MB4` with `UTF8MB4_UNICODE_CI`, the upper-cased forms of
`utf8mb4` and `utf8mb4_unicode_ci`, is accepted like them. -/
theorem VerfiyCharacterCollation_case_insensitive_witness :
    strings.ToUpper asciiTables "utf8mb4".toList = "UTF8MB4".toList ∧
    ((mysql "mysql").VerfiyCharacterCollation asciiTables
        (strings.ToUpper asciiTables "utf8mb4".toList)
        (strings.ToUpper asciiTables "utf8mb4_unicode_ci".toList)).1 =
      ((mysql "mysql").VerfiyCharacterCollation asciiTables "utf8mb4".toList
        "utf8mb4_unicode_ci".toList).1 :=
  ⟨by decide,
   (VerfiyCharacterCollation_case_insensitive (mysql "mysql") (pgConn "") asciiTables
      asciiTables_Apart "utf8mb4".toList "utf8mb4_unicode_ci".toList).2.1⟩

/-! ## Lemmas: schema version statements -/

theorem quote_not_mem_versionJSON (v : Nat) : Sql.quote ∉ versionJSON (v : Int) := by
  have hd := fmt_d_not_mem v Sql.quote (by decide)
  simp only [versionJSON, List.mem_append]
  rintro ((h | h) | h)
  · exact absurd h (by decide)
  · exact hd h
  · exact absurd h (by decide)

theorem jsonAttr_versionJSON (v : Nat) :
    Sql.jsonAttr (versionJSON (v : Int)) "database".toList = some (fmt.d (v : Int)) := by
  have hd := fmt_d_not_mem v '"' (by decide)
  have hform : versionJSON (v : Int) =
      "\x7b".toList ++ '"' :: ("database".toList ++ '"' :: (": ".toList ++
        '"' :: (fmt.d (v : Int) ++ '"' :: "\x7d".toList))) := by
    simp only [versionJSON, List.append_assoc]
    rfl
  have hsplit : strings.Split (versionJSON (v : Int)) '"' =
      ["\x7b".toList, "database".toList, ": ".toList, fmt.d (v : Int), "\x7d".toList] := by
    rw [hform, strings.Split_append_sep _ _ _ (by decide),
      strings.Split_append_sep _ _ _ (by decide), strings.Split_append_sep _ _ _ (by decide),
      strings.Split_append_sep _ _ _ hd, strings.Split_of_not_mem _ _ (by decide)]
  simp only [Sql.jsonAttr, hsplit]
  rw [if_pos (by decide)]

theorem parseMySQL_upsert (p : MySQLProvider) (v : Nat) :
    Sql.parseMySQL (p.QueryRecordVersionUpgrade (v : Int)) =
      some (.upsert "META".toList (versionJSON v) (versionJSON v) "META".toList) := by
  have hq := quote_not_mem_versionJSON v
  have hform : p.QueryRecordVersionUpgrade (v : Int) =
      "INSERT INTO dmz_config (c_key,c_config) VALUES ('META',".toList ++ Sql.quote ::
        (versionJSON v ++ Sql.quote :: (") ON DUPLICATE KEY UPDATE c_config=".toList ++
          Sql.quote :: (versionJSON v ++ Sql.quote :: ";".toList))) := by
    simp only [MySQLProvider.QueryRecordVersionUpgrade, List.append_assoc]
    rfl
  have hsplit : Sql.pieces (p.QueryRecordVersionUpgrade (v : Int)) =
      ["INSERT INTO dmz_config (c_key,c_config) VALUES (".toList, "META".toList, ",".toList,
        versionJSON v, ") ON DUPLICATE KEY UPDATE c_config=".toList, versionJSON v,
        ";".toList] := by
    have h1 : strings.Split "INSERT INTO dmz_config (c_key,c_config) VALUES ('META',".toList
        Sql.quote = ["INSERT INTO dmz_config (c_key,c_config) VALUES (".toList,
          "META".toList, ",".toList] := by decide
    have h3 : strings.Split ";".toList Sql.quote = [";".toList] := by decide
    rw [Sql.pieces, hform, strings.Split_append, h1,
      strings.Split_append_sep (versionJSON v) _ Sql.quote hq,
      strings.Split_append_sep ") ON DUPLICATE KEY UPDATE c_config=".toList _ Sql.quote
        (by decide),
      strings.Split_append_sep (versionJSON v) _ Sql.quote hq, h3]
    rfl
  simp only [Sql.parseMySQL, hsplit]
  rw [if_pos (by decide)]

theorem parsePostgreSQL_upsert (p : PostgreSQLProvider) (v : Nat) :
    Sql.parsePostgreSQL (p.QueryRecordVersionUpgrade (v : Int)) =
      some (.upsert "META".toList (versionJSON v) (versionJSON v) "META".toList) := by
  have hq := quote_not_mem_versionJSON v
  have hform : p.QueryRecordVersionUpgrade (v : Int) =
      "INSERT INTO dmz_config (c_key,c_config) VALUES ('META',".toList ++ Sql.quote ::
        (versionJSON v ++ Sql.quote ::
          (")\n        ON CONFLICT (c_key) DO UPDATE SET c_config=".toList ++
          Sql.quote :: (versionJSON v ++ Sql.quote ::
            " WHERE dmz_config.c_key='META'".toList))) := by
    simp only [PostgreSQLProvider.QueryRecordVersionUpgrade, List.append_assoc]
    rfl
  have hsplit : Sql.pieces (p.QueryRecordVersionUpgrade (v : Int)) =
      ["INSERT INTO dmz_config (c_key,c_config) VALUES (".toList, "META".toList, ",".toList,
        versionJSON v, ")\n        ON CONFLICT (c_key) DO UPDATE SET c_config=".toList,
        versionJSON v, " WHERE dmz_config.c_key=".toList, "META".toList, []] := by
    have h1 : strings.Split "INSERT INTO dmz_config (c_key,c_config) VALUES ('META',".toList
        Sql.quote = ["INSERT INTO dmz_config (c_key,c_config) VALUES (".toList,
          "META".toList, ",".toList] := by decide
    have h3 : strings.Split " WHERE dmz_config.c_key='META'".toList Sql.quote =
        [" WHERE dmz_config.c_key=".toList, "META".toList, []] := by decide
    rw [Sql.pieces, hform, strings.Split_append, h1,
      strings.Split_append_sep (versionJSON v) _ Sql.quote hq,
      strings.Split_append_sep
        ")\n        ON CONFLICT (c_key) DO UPDATE SET c_config=".toList _ Sql.quote
        (by decide),
      strings.Split_append_sep (versionJSON v) _ Sql.quote hq, h3]
    rfl
  simp only [Sql.parsePostgreSQL, hsplit]
  rw [if_pos (by decide)]

/-- Executing the upsert of a document and then the query for one of its attributes
yields that attribute, whatever the table held before. -/
theorem exec_select_upsert (doc attr : List Char) (cfg : Sql.Config) :
    (Sql.exec (.selectAttr attr "META".toList)
      (Sql.exec (.upsert "META".toList doc doc "META".toList) cfg).1).2 =
      Sql.jsonAttr doc attr := by
  simp only [Sql.exec]
  cases cfg "META".toList with
  | none => simp
  | some old => simp

/-! ## Schema version: the settled property -/

/-- C19: round trip of the schema version, for both providers and every non-negative
version `v` of Go's `int`. The statement of `QueryRecordVersionUpgrade(v)` is an upsert of
the row `META` of `dmz_config` whose insert branch and update branch store the same
document, the JSON object with the attribute `database` set to the decimal numeral of `v`;
the query of `QueryGetDatabaseVersion` asks for the attribute `database` of `c_config` in
that row; the query executed after the statement, on any table, yields that numeral,
which reads back as `v`. -/
theorem schema_version_round_trip (pm : MySQLProvider) (pp : PostgreSQLProvider) (v : Nat)
    (hv : v < 2 ^ 63) (cfg : Sql.Config) :
    Sql.parseMySQL (pm.QueryRecordVersionUpgrade (v : Int)) =
      some (.upsert "META".toList (versionJSON v) (versionJSON v) "META".toList) ∧
    Sql.parsePostgreSQL (pp.QueryRecordVersionUpgrade (v : Int)) =
      some (.upsert "META".toList (versionJSON v) (versionJSON v) "META".toList) ∧
    Sql.parseMySQL pm.QueryGetDatabaseVersion =
      some (.selectAttr "database".toList "META".toList) ∧
    Sql.parsePostgreSQL pp.QueryGetDatabaseVersion =
      some (.selectAttr "database".toList "META".toList) ∧
    Sql.readAfterWrite Sql.parseMySQL (pm.QueryRecordVersionUpgrade (v : Int))
      pm.QueryGetDatabaseVersion cfg = some (fmt.d (v : Int)) ∧
    Sql.readAfterWrite Sql.parsePostgreSQL (pp.QueryRecordVersionUpgrade (v : Int))
      pp.QueryGetDatabaseVersion cfg = some (fmt.d (v : Int)) ∧
    strconv.Atoi (fmt.d (v : Int)) = .ok (v : Int) := by
  have hm1 := parseMySQL_upsert pm v
  have hp1 := parsePostgreSQL_upsert pp v
  have hm2 : Sql.parseMySQL pm.QueryGetDatabaseVersion =
      some (.selectAttr "database".toList "META".toList) := by
    rw [show pm.QueryGetDatabaseVersion = (mysql "mysql").QueryGetDatabaseVersion from rfl]
    decide
  have hp2 : Sql.parsePostgreSQL pp.QueryGetDatabaseVersion =
      some (.selectAttr "database".toList "META".toList) := by
    rw [show pp.QueryGetDatabaseVersion = (pgConn "").QueryGetDatabaseVersion from rfl]
    decide
  refine ⟨hm1, hp1, hm2, hp2, ?_, ?_, ?_⟩
  · simp only [Sql.readAfterWrite, hm1, hm2]
    rw [exec_select_upsert, jsonAttr_versionJSON]
  · simp only [Sql.readAfterWrite, hp1, hp2]
    rw [exec_select_upsert, jsonAttr_versionJSON]
  · rw [fmt_d_natCast]
    exact strconv.Atoi_toDigits v hv

/-- Witness of C19 at version 25, on an empty table for MySQL and on a table that already
holds a row `META` for PostgreSQL. -/
theorem schema_version_round_trip_witness :
    Sql.readAfterWrite Sql.parseMySQL ((mysql "mysql").QueryRecordVersionUpgrade (25 : Nat))
      (mysql "mysql").QueryGetDatabaseVersion (fun _ => none) = some "25".toList ∧
    Sql.readAfterWrite Sql.parsePostgreSQL ((pgConn "").QueryRecordVersionUpgrade (25 : Nat))
      (pgConn "").QueryGetDatabaseVersion (fun _ => some "old".toList) = some "25".toList :=
  ⟨((schema_version_round_trip (mysql "mysql") (pgConn "") 25 (by norm_num)
      (fun _ => none)).2.2.2.2.1).trans (by decide),
   ((schema_version_round_trip (mysql "mysql") (pgConn "") 25 (by norm_num)
      (fun _ => some "old".toList)).2.2.2.2.2.1).trans (by decide)⟩

/-! ## Lemmas: applying `MakeConnectionString` twice -/

theorem mem_joinAmp (c : Char) (items : List (List Char)) (h : c ∈ joinAmp items) :
    c = '&' ∨ ∃ x ∈ items, c ∈ x := by
  cases items with
  | nil => simp [joinAmp] at h
  | cons i rest =>
    simp only [joinAmp, List.mem_append, List.mem_flatten, List.mem_map] at h
    rcases h with h | ⟨l, ⟨x, hx, rfl⟩, hc⟩
    · exact Or.inr ⟨i, by simp, h⟩
    · rcases List.mem_cons.1 hc with hc | hc
      · exact Or.inl hc
      · exact Or.inr ⟨x, List.mem_cons_of_mem _ hx, hc⟩

theorem Params_items (p : MySQLProvider) :
    (∀ kv ∈ p.Params, '?' ∉ item kv) ∧
    (∀ kv ∈ p.Params, isRequired p.Params (item kv) = true) := by
  rw [show p.Params = (withConn "").Params from rfl]
  decide

/-- The passed-through parameters hold no `?` and none of them is recognised. -/
theorem kept_facts (p : MySQLProvider) :
    ∀ x ∈ kept p, '?' ∉ x ∧ isRequired p.Params x = false := by
  intro x hx
  simp only [kept] at hx
  split at hx
  · rename_i h2
    have hq : '?' ∈ p.ConnectionString := by
      by_contra hn
      rw [strings.Split_of_not_mem _ _ hn] at h2
      simp at h2
    have h1 : (strings.Split (afterFirst p.ConnectionString '?') '?').length = 1 := by
      rw [strings.Split_eq_cons _ _ hq] at h2
      simpa using h2
    have hn : '?' ∉ afterFirst p.ConnectionString '?' := by
      rw [strings.Split_length] at h1
      intro hm
      have := List.count_pos_iff.2 hm
      omega
    obtain ⟨hin, hreq⟩ := List.mem_filter.1 hx
    refine ⟨fun hm => hn ((Split_piece_within _ _ x hin).subset hm), ?_⟩
    simpa using hreq
  · simp at hx

/-- The passed-through parameters of a returned string are those of the string it was
made from. -/
theorem kept_of_output (p : MySQLProvider) (order : List (List Char × List Char))
    (hperm : order.Perm p.Params) (variant : List Char) :
    kept (MySQLProvider.mk (p.ConnectionString.takeWhile (fun c => c ≠ '?') ++
      '?' :: joinAmp (kept p ++ order.map item)) variant) = kept p := by
  obtain ⟨out, hout, hpl⟩ := paramList_MakeConnectionString p order hperm
  have hform := MakeConnectionString_eq p order
  rw [hout] at hform
  have hout2 := Except.ok.inj hform
  rw [hout2] at hpl
  have hb : '?' ∉ p.ConnectionString.takeWhile (fun c => c ≠ '?') := by
    intro hm
    have := List.mem_takeWhile_imp hm
    simp at this
  have hX : '?' ∉ joinAmp (kept p ++ order.map item) := by
    intro hm
    rcases mem_joinAmp _ _ hm with h | ⟨x, hx, hc⟩
    · exact absurd h (by decide)
    · rcases List.mem_append.1 hx with h | h
      · exact (kept_facts p x h).1 hc
      · obtain ⟨kv, hkv, rfl⟩ := List.mem_map.1 h
        exact (Params_items p).1 kv (hperm.mem_iff.1 hkv) hc
  have hlen : (strings.Split (p.ConnectionString.takeWhile (fun c => c ≠ '?') ++
      '?' :: joinAmp (kept p ++ order.map item)) '?').length = 2 := by
    rw [strings.Split_append_sep _ _ _ hb, strings.Split_of_not_mem _ _ hX]
    rfl
  have hk : (kept p).filter (fun pb => !isRequired p.Params pb) = kept p := by
    rw [List.filter_eq_self]
    intro a ha
    simp [(kept_facts p a ha).2]
  have hr : (order.map item).filter (fun pb => !isRequired p.Params pb) = [] := by
    rw [List.filter_eq_nil_iff]
    intro a ha
    obtain ⟨kv, hkv, rfl⟩ := List.mem_map.1 ha
    simp [(Params_items p).2 kv (hperm.mem_iff.1 hkv)]
  generalize kept p = K at hpl hlen hk ⊢
  simp only [kept]
  rw [if_pos hlen, hpl]
  rw [show (MySQLProvider.mk (p.ConnectionString.takeWhile (fun c => c ≠ '?') ++
      '?' :: joinAmp (K ++ order.map item)) variant).Params = p.Params from rfl,
    List.filter_append, hk, hr, List.append_nil]

/-! ## Applying `MakeConnectionString` twice: the settled property -/

/-- C21: `MakeConnectionString` is idempotent up to the order of the appended required
parameters. For every connection string, with `out1` the string returned for it and
`out2` the string returned for a provider whose connection string is `out1` (the map of
required parameters iterated in the orders `order1` and `order2`): both calls return, the
text before `?` is the same, both parameter lists are the same passed-through parameters
followed by the required ones, each once, so they are permutations of each other, and
`out2 = out1` when the two orders are the same. -/
theorem MakeConnectionString_idempotent (p : MySQLProvider)
    (order1 order2 : List (List Char × List Char))
    (h1 : order1.Perm p.Params) (h2 : order2.Perm p.Params) :
    ∃ out1 out2 pass,
      p.MakeConnectionString order1 = .ok out1 ∧
      (MySQLProvider.mk out1 p.Variant).MakeConnectionString order2 = .ok out2 ∧
      out2.takeWhile (fun c => c ≠ '?') = out1.takeWhile (fun c => c ≠ '?') ∧
      paramList out1 = pass ++ order1.map item ∧
      paramList out2 = pass ++ order2.map item ∧
      (paramList out2).Perm (paramList out1) ∧
      (order2 = order1 → out2 = out1) := by
  have hb : '?' ∉ p.ConnectionString.takeWhile (fun c => c ≠ '?') := by
    intro hm
    have := List.mem_takeWhile_imp hm
    simp at this
  have e1 := MakeConnectionString_eq p order1
  have hk := kept_of_output p order1 h1 p.Variant
  have e2 := MakeConnectionString_eq (MySQLProvider.mk
    (p.ConnectionString.takeWhile (fun c => c ≠ '?') ++
      '?' :: joinAmp (kept p ++ order1.map item)) p.Variant) order2
  rw [hk] at e2
  simp only [takeWhile_ne_append _ _ '?' hb] at e2
  obtain ⟨o1, ho1, hp1⟩ := paramList_MakeConnectionString p order1 h1
  obtain ⟨o2, ho2, hp2⟩ := paramList_MakeConnectionString (MySQLProvider.mk
    (p.ConnectionString.takeWhile (fun c => c ≠ '?') ++
      '?' :: joinAmp (kept p ++ order1.map item)) p.Variant) order2 h2
  rw [hk] at hp2
  rw [e1] at ho1
  rw [e2] at ho2
  rw [← Except.ok.inj ho1] at hp1
  rw [← Except.ok.inj ho2] at hp2
  refine ⟨_, _, kept p, e1, e2, ?_, hp1, hp2, ?_, ?_⟩
  · rw [takeWhile_ne_append _ _ '?' hb, takeWhile_ne_append _ _ '?' hb]
  · rw [hp1, hp2]
    exact List.Perm.append_left _ ((h2.trans h1.symm).map item)
  · intro h
    rw [h]

/-- Witness of C21 at `db?x=1&charset=latin1`, the second call iterating the map in the
reverse order of the first. -/
theorem MakeConnectionString_idempotent_witness :
    ∃ out1 out2 pass,
      (withConn "db?x=1&charset=latin1").MakeConnectionString (withConn "").Params =
        .ok out1 ∧
      (MySQLProvider.mk out1 (withConn "db?x=1&charset=latin1").Variant).MakeConnectionString
        (withConn "").Params.reverse = .ok out2 ∧
      out2.takeWhile (fun c => c ≠ '?') = out1.takeWhile (fun c => c ≠ '?') ∧
      paramList out1 = pass ++ (withConn "").Params.map item ∧
      paramList out2 = pass ++ (withConn "").Params.reverse.map item ∧
      (paramList out2).Perm (paramList out1) ∧
      ((withConn "").Params.reverse = (withConn "").Params → out2 = out1) :=
  MakeConnectionString_idempotent (withConn "db?x=1&charset=latin1") (withConn "").Params
    (withConn "").Params.reverse (List.Perm.refl _) (List.reverse_perm _)

end Storage
